import Mathlib

/-!
# Range-indexed Merkle tree of `arweave/merkle.go`

A shallow embedding of the tree builder (`GenerateTree`), the proof generator
(`GeneratePath`) and the proof validator (`ValidatePath`), followed by the
properties proved about them.

Conventions of the embedding:

* `[32]byte` is `Bytes32`, a list of 32 bytes; `[]byte` is `List Byte`.
* `big.Int` is `Int`.
* `sha256.Sum256` is a parameter `H : List Byte → Bytes32` of every function
  that hashes. Nothing is assumed about it except where a theorem says so.
* `[]*node` is `List node`: nodes are never mutated after they are built.
* A Go `panic` and a Go `error` are distinct constructors of the result types.
-/

set_option maxRecDepth 1000000

namespace Arweave

/-! ## Bytes and big integers -/

/-- One octet. -/
abbrev Byte := Fin 256

/-- The Go type `[32]byte`. -/
abbrev Bytes32 := {l : List Byte // l.length = 32}

/-- The zero value of `[32]byte`. -/
def zero32 : Bytes32 := ⟨List.replicate 32 0, by simp⟩

/-- Go's builtin `copy(dst[:], src)` for a 32-byte array `dst`: the first
`min 32 (len src)` bytes of `dst` are overwritten, the rest are kept. -/
def copy32 (dst : Bytes32) (src : List Byte) : Bytes32 :=
  ⟨src.take 32 ++ dst.val.drop (min 32 src.length), by
    have h := dst.property
    simp only [List.length_append, List.length_take, List.length_drop, h]
    omega⟩

/-- Big-endian digits of `n` in base 256 without leading zeros; the first
argument bounds the number of digits produced. -/
def natBytesAux : Nat → Nat → List Byte
  | 0, _ => []
  | f + 1, n =>
    if n = 0 then [] else natBytesAux f (n / 256) ++ [⟨n % 256, Nat.mod_lt _ (by decide)⟩]

/-- The bytes of `(*big.Int).Bytes()` for the absolute value `n`: big-endian,
minimal length, empty for zero. A number `n` has at most `n` digits. -/
def natBytes (n : Nat) : List Byte := natBytesAux n n

/-- The value of `new(big.Int).SetBytes(bs)`: `bs` read as a big-endian unsigned integer. -/
def setBytes (bs : List Byte) : Nat := bs.foldl (fun acc b => acc * 256 + b.val) 0

/-- The library function `common.LeftPadBytes` of go-ethereum: a slice that already
has `l` bytes or more is returned as it is, a shorter one is zero-padded on the left. -/
def LeftPadBytes (slice : List Byte) (l : Nat) : List Byte :=
  if l ≤ slice.length then slice else List.replicate (l - slice.length) 0 ++ slice

/-- The source's `noteToBinary`. -/
def noteToBinary (note : Int) : List Byte := LeftPadBytes (natBytes note.natAbs) 32

/-! ## Data model -/

/-- The constant `NODE_TYPE_ROOT`. -/
def NODE_TYPE_ROOT : Nat := 0
/-- The constant `NODE_TYPE_BRANCH`. -/
def NODE_TYPE_BRANCH : Nat := 1
/-- The constant `NODE_TYPE_LEAF`. -/
def NODE_TYPE_LEAF : Nat := 2

/-- The struct `node`. -/
structure node where
  id : Bytes32
  nodeType : Nat
  data : Bytes32
  note : Int
  left : Bytes32
  right : Bytes32
  max : Int
  deriving DecidableEq

/-- The struct `element`. -/
structure element where
  data : Bytes32
  note : Int
  deriving DecidableEq

/-! ## Tree builder -/

/-- The body of the loop of `generateLeaves`: the leaf node of one element. -/
def leafNode (H : List Byte → Bytes32) (e : element) : node :=
  let h0 := H e.data.val
  let h1 := H (noteToBinary e.note)
  let v0 := h0.val ++ h1.val
  let h := H v0
  { id := h, nodeType := NODE_TYPE_LEAF, note := e.note, max := e.note, data := e.data,
    left := zero32, right := zero32 }

/-- The source's `generateLeaves`. -/
def generateLeaves (H : List Byte → Bytes32) (elements : List element) : List node :=
  elements.map (leafNode H)

/-- The source's `generateNode`; `right = none` is the nil pointer. -/
def generateNode (H : List Byte → Bytes32) (left : node) (right : Option node) : node :=
  match right with
  | none => left
  | some right =>
    let h0 := H left.id.val
    let h1 := H right.id.val
    let h2 := H (noteToBinary left.max)
    let v0 := h0.val ++ h1.val
    let v1 := v0 ++ h2.val
    { nodeType := NODE_TYPE_BRANCH, id := H v1, left := left.id, right := right.id,
      note := left.max, max := right.max, data := zero32 }

/-- The source's `generateRow`: the loop steps through the row two nodes at a time. -/
def generateRow (H : List Byte → Bytes32) : List node → List node
  | [] => []
  | [left] => [generateNode H left none]
  | left :: right :: rest => generateNode H left (some right) :: generateRow H rest

/-- The `for` loop of `generateAllRows`, with the number of passes bounded by the
first argument. Every pass makes the row shorter, so `cRow.length` passes are
always enough (`generateAllRowsLoop_fuel`). -/
def generateAllRowsLoop (H : List Byte → Bytes32) : Nat → List node → List node → List node
  | 0, tree, _ => tree
  | fuel + 1, tree, cRow =>
    if cRow.length ≤ 1 then tree
    else
      let newRow := generateRow H cRow
      generateAllRowsLoop H fuel (newRow ++ tree) newRow

/-- The source's `generateAllRows`. -/
def generateAllRows (H : List Byte → Bytes32) (row : List node) : Bytes32 × List node :=
  match row with
  | [] => (zero32, row)
  | _ :: _ =>
    let tree := generateAllRowsLoop H row.length row row
    -- `tree[0]`: the loop never returns an empty list here (`generateAllRowsLoop_ne_nil`)
    match tree with
    | [] => (zero32, tree)
    | t :: _ => (t.id, tree)

/-- The source's `GenerateTree`. -/
def GenerateTree (H : List Byte → Bytes32) (elements : List element) : Bytes32 × List node :=
  generateAllRows H (generateLeaves H elements)

/-! ## Proof generator -/

/-- The ways the Go code can panic. -/
inductive Panic where
  /-- The message `inccorect path` of `pathToParts`. -/
  | incorrectPath
  /-- A nil pointer dereference: `getNode` returned nil and its field is read. -/
  | nilDereference
  /-- The message `nodeType not supported` of `generatePathParts`. -/
  | nodeTypeNotSupported
  deriving DecidableEq

/-- Outcome of a recursive Go function whose recursion depth is bounded by a fuel argument. -/
inductive Run (α : Type) where
  | done (a : α)
  | panicked (p : Panic)
  | outOfFuel
  deriving DecidableEq

/-- The source's `getNode`: the first node of `tree` with the identifier, or nil. -/
def getNode (id : Bytes32) (tree : List node) : Option node :=
  tree.find? (fun n => decide (id = n.id))

/-- The source's `generatePathParts`; the first argument bounds the recursion depth. -/
def generatePathParts : Nat → Bytes32 → Int → List node → Run (List (List Byte))
  | 0, _, _, _ => Run.outOfFuel
  | fuel + 1, id, dest, tree =>
    match getNode id tree with
    | none => Run.panicked Panic.nilDereference
    | some n =>
      if n.nodeType = NODE_TYPE_LEAF then
        Run.done [n.data.val, noteToBinary n.note]
      else if n.nodeType = NODE_TYPE_BRANCH then
        let nextNodeId := if dest < n.note then n.left else n.right
        match generatePathParts fuel nextNodeId dest tree with
        | Run.done rest => Run.done ([n.left.val, n.right.val, noteToBinary n.note] ++ rest)
        | Run.panicked p => Run.panicked p
        | Run.outOfFuel => Run.outOfFuel
      else Run.panicked Panic.nodeTypeNotSupported

/-- The source's `GeneratePath`; the first argument bounds the recursion depth of
`generatePathParts`. -/
def GeneratePath (fuel : Nat) (root : Bytes32) (dest : Int) (tree : List node) : Run (List Byte) :=
  match generatePathParts fuel root dest tree with
  | Run.done parts => Run.done parts.flatten
  | Run.panicked p => Run.panicked p
  | Run.outOfFuel => Run.outOfFuel

/-! ## Proof validator -/

/-- The two `fmt.Errorf` values of `validatePath`. -/
inductive PathError where
  /-- The error `hash mismatch`. -/
  | hashMismatch
  /-- The error `insufficient proof`. -/
  | insufficientProof
  deriving DecidableEq

/-- What a call of `ValidatePath` does. -/
inductive Validation where
  /-- The leaf return `return bs, leftBound, bigMax(...), nil`. -/
  | leaf (chunk : Bytes32) (leftBound rightBound : Int)
  /-- A return `return [32]byte{}, nil, nil, fmt.Errorf(...)`. -/
  | failed (e : PathError)
  /-- The last statement `return [32]byte{}, nil, nil, nil`, commented `never reach here`:
  a zero hash, nil bounds and a nil error. -/
  | fellThrough
  /-- The call panics. -/
  | panicked (p : Panic)
  deriving DecidableEq

/-- The error component of the returned tuple is nil. -/
def Validation.errIsNil : Validation → Bool
  | Validation.leaf _ _ _ => true
  | Validation.fellThrough => true
  | _ => false

/-- The slices `path[i : i+32]` for `i = 0, 32, ...`, `k` of them. -/
def partsFrom : Nat → List Byte → List (List Byte)
  | 0, _ => []
  | k + 1, path => path.take 32 :: partsFrom k (path.drop 32)

/-- The source's `pathToParts`; `none` is the panic `inccorect path`. -/
def pathToParts (path : List Byte) : Option (List (List Byte)) :=
  if path.length % 32 ≠ 0 then none else some (partsFrom (path.length / 32) path)

/-- The source's `bigMax`. -/
def bigMax (l r : Int) : Int := if l < r then r else l

/-- The source's `bigMin`. -/
def bigMin (l r : Int) : Int := if l < r then l else r

/-- The `for len(parts) > 0` loop of `validatePath` together with the return that follows it. -/
def validateParts (H : List Byte → Bytes32) (id : Bytes32) (dest leftBound rightBound : Int) :
    List (List Byte) → Validation
  | [] => Validation.fellThrough
  | [_] => Validation.failed PathError.insufficientProof
  | [p0, p1] =>
    let h0 := H p0
    let h1 := H p1
    let v0 := h0.val ++ h1.val
    let h := H v0
    if h ≠ id then Validation.failed PathError.hashMismatch
    else
      let noteValue : Int := (setBytes p1 : Nat)
      let bs := copy32 zero32 p0
      Validation.leaf bs leftBound (bigMax (bigMin rightBound noteValue) (leftBound + 1))
  | left :: right :: note :: rest =>
    let h0 := H left
    let h1 := H right
    let h2 := H note
    let v0 := h0.val ++ h1.val
    let v1 := v0 ++ h2.val
    let h := H v1
    if h ≠ id then Validation.failed PathError.hashMismatch
    else
      let noteValue : Int := (setBytes note : Nat)
      if dest < noteValue then
        validateParts H (copy32 id left) dest leftBound (bigMin noteValue rightBound) rest
      else
        validateParts H (copy32 id right) dest (bigMax noteValue leftBound) rightBound rest

/-- The source's `validatePath`. -/
def validatePath (H : List Byte → Bytes32) (id : Bytes32) (dest leftBound rightBound : Int)
    (path : List Byte) : Validation :=
  match pathToParts path with
  | none => Validation.panicked Panic.incorrectPath
  | some parts => validateParts H id dest leftBound rightBound parts

/-- The source's `ValidatePath`. -/
def ValidatePath (H : List Byte → Bytes32) (root : Bytes32) (dest rightBound : Int)
    (path : List Byte) : Validation :=
  let dest := if dest < 0 then 0 else dest
  let dest := if dest ≥ rightBound then rightBound - 1 else dest
  validatePath H root dest 0 rightBound path

/-! ## The tree behind the node list

`GenerateTree` returns a flat list of nodes that refer to each other by identifier. A
`Shape` is the binary tree those nodes form; it is used only to state and prove
properties of the list. -/

/-- A binary tree with an element at every leaf. -/
inductive Shape where
  | leaf (e : element)
  | branch (l r : Shape)

/-- The node that the builder makes for a shape: `leafNode` at a leaf, `generateNode`
of the two children at a branch. -/
def Shape.toNode (H : List Byte → Bytes32) : Shape → node
  | Shape.leaf e => leafNode H e
  | Shape.branch l r => generateNode H (l.toNode H) (some (r.toNode H))

/-- The elements at the leaves, left to right. -/
def Shape.leaves : Shape → List element
  | Shape.leaf e => [e]
  | Shape.branch l r => l.leaves ++ r.leaves

/-- The rightmost leaf. -/
def Shape.last : Shape → element
  | Shape.leaf e => e
  | Shape.branch _ r => r.last

/-- The nodes of a shape: its own node and those of its subtrees. -/
def Shape.nodes (H : List Byte → Bytes32) : Shape → List node
  | Shape.leaf e => [leafNode H e]
  | Shape.branch l r => (Shape.branch l r).toNode H :: (l.nodes H ++ r.nodes H)

/-- The number of branch nodes on the longest way down. -/
def Shape.height : Shape → Nat
  | Shape.leaf _ => 0
  | Shape.branch l r => Nat.max l.height r.height + 1

/-- The leaf that a descent with the rule of `generatePathParts` ends in:
left when `dest < note`, right otherwise. -/
def Shape.target (H : List Byte → Bytes32) (dest : Int) : Shape → element
  | Shape.leaf e => e
  | Shape.branch l r => if dest < (l.toNode H).max then l.target H dest else r.target H dest

/-- The branch nodes that the descent visits, from the root down. -/
def Shape.branches (H : List Byte → Bytes32) (dest : Int) : Shape → List node
  | Shape.leaf _ => []
  | Shape.branch l r =>
    (Shape.branch l r).toNode H ::
      (if dest < (l.toNode H).max then l.branches H dest else r.branches H dest)

/-- The three segments a branch node contributes to a proof. -/
def branchGroup (b : node) : List (List Byte) := [b.left.val, b.right.val, noteToBinary b.note]

/-- The two segments that end a proof. -/
def leafGroup (e : element) : List (List Byte) := [e.data.val, noteToBinary e.note]

/-- The interval that `validatePath` computes along the descent in a shape. -/
def Shape.bounds (H : List Byte → Bytes32) (dest : Int) : Shape → Int → Int → Int × Int
  | Shape.leaf e, lb, rb => (lb, bigMax (bigMin rb e.note) (lb + 1))
  | Shape.branch l r, lb, rb =>
    if dest < (l.toNode H).max then l.bounds H dest lb (bigMin (l.toNode H).max rb)
    else r.bounds H dest (bigMax (l.toNode H).max lb) rb

/-- One pass of `generateRow` on shapes: neighbours are paired, an odd last one is kept. -/
def pairUp : List Shape → List Shape
  | [] => []
  | [t] => [t]
  | l :: r :: rest => Shape.branch l r :: pairUp rest

/-- The proof starts at `id` and every branch node is followed by the child that the
rule of `generatePathParts` chooses for `dest`, down to the node `last`. -/
def IsDescent (dest : Int) : Bytes32 → List node → node → Prop
  | id, [], last => last.id = id
  | id, b :: bs, last =>
    b.id = id ∧ IsDescent dest (if dest < b.note then b.left else b.right) bs last

/-- No two different nodes of the list have the same identifier. -/
def DistinctIds (tree : List node) : Prop :=
  ∀ n ∈ tree, ∀ m ∈ tree, n.id = m.id → n = m

/-- The byte strings that were hashed to obtain the identifier of a node. -/
def nodeHashInputs (H : List Byte → Bytes32) (n : node) : List (List Byte) :=
  if n.nodeType = NODE_TYPE_LEAF then
    [n.data.val, noteToBinary n.note, (H n.data.val).val ++ (H (noteToBinary n.note)).val]
  else
    [n.left.val, n.right.val, noteToBinary n.note,
      (H n.left.val).val ++ (H n.right.val).val ++ (H (noteToBinary n.note)).val]

/-- The byte strings that `validatePath` hashes when it checks every group of a proof. -/
def partsHashInputs (H : List Byte → Bytes32) : List (List Byte) → List (List Byte)
  | [] => []
  | [_] => []
  | [p0, p1] => [p0, p1, (H p0).val ++ (H p1).val]
  | left :: right :: note :: rest =>
    [left, right, note, (H left).val ++ (H right).val ++ (H note).val] ++ partsHashInputs H rest

/-- The hash has no collision among the byte strings of `inputs`. -/
def NoCollision (H : List Byte → Bytes32) (inputs : List (List Byte)) : Prop :=
  ∀ x ∈ inputs, ∀ y ∈ inputs, H x = H y → x = y

instance (tree : List node) : Decidable (DistinctIds tree) := by
  unfold DistinctIds; infer_instance

instance (H : List Byte → Bytes32) (inputs : List (List Byte)) : Decidable (NoCollision H inputs) := by
  unfold NoCollision; infer_instance

/-- The segments of a proof: the groups of the branch nodes visited, then the leaf group. -/
def proofParts (branches : List node) (e : element) : List (List Byte) :=
  (branches.map branchGroup).flatten ++ leafGroup e

/-- All boundaries are non-negative and fit in 256 bits, as the data model requires. -/
def InRange (es : List element) : Prop := ∀ e ∈ es, 0 ≤ e.note ∧ e.note < 2 ^ 256

/-- The boundaries are strictly increasing. -/
def Increasing (es : List element) : Prop := es.Pairwise (fun a b => a.note < b.note)

/-- The boundary that closes the range before leaf `i`: `0` before the first leaf,
otherwise the boundary of leaf `i - 1`. -/
def boundaryBefore (es : List element) : Nat → Int
  | 0 => 0
  | i + 1 => match es[i]? with
    | some e => e.note
    | none => 0

instance (es : List element) : Decidable (InRange es) := by
  unfold InRange; infer_instance

instance (es : List element) : Decidable (Increasing es) := by
  unfold Increasing; infer_instance

/-- The destination after the two clamping steps at the start of `ValidatePath`. -/
def clampDest (dest rightBound : Int) : Int :=
  let dest := if dest < 0 then 0 else dest
  if dest ≥ rightBound then rightBound - 1 else dest

/-- The byte strings that `validatePath` hashes when it checks every group of the proof `path`. -/
def proofHashInputs (H : List Byte → Bytes32) (path : List Byte) : List (List Byte) :=
  match pathToParts path with
  | some parts => partsHashInputs H parts
  | none => []

/-- The byte strings hashed to obtain the identifiers of all nodes of a list. -/
def treeHashInputs (H : List Byte → Bytes32) (tree : List node) : List (List Byte) :=
  (tree.map (nodeHashInputs H)).flatten

/-- The hash-chain condition in the words of the specification. The expected identifier is
`currentId`; a branch group `leftId ‖ rightId ‖ noteBytes` must hash to it as
`hash(hash(leftId) ‖ hash(rightId) ‖ hash(noteBytes))` and the expected identifier then
becomes `leftId` when `dest` is below the decoded note and `rightId` otherwise; the terminal
group `chunkHash ‖ boundaryBytes` must hash to it as
`hash(hash(chunkHash) ‖ hash(boundaryBytes))`. -/
def hashChainHolds (H : List Byte → Bytes32) (dest : Int) : List Byte → List (List Byte) → Prop
  | currentId, [chunkHash, boundaryBytes] =>
    (H ((H chunkHash).val ++ (H boundaryBytes).val)).val = currentId
  | currentId, leftId :: rightId :: noteBytes :: rest =>
    (H ((H leftId).val ++ (H rightId).val ++ (H noteBytes).val)).val = currentId ∧
      hashChainHolds H dest (if dest < (setBytes noteBytes : Nat) then leftId else rightId) rest
  | _, _ => False

/-- The list `run` is a contiguous run of `es`: `es` is `run` with something before and
something after it. -/
def Contiguous (run es : List element) : Prop := ∃ pre post, es = pre ++ run ++ post

/-! ## A small hash function for the examples -/

/-- A 32-bit polynomial checksum. -/
def toyAcc (bs : List Byte) : Nat :=
  bs.foldl (fun acc b => (acc * 31 + b.val + 1) % 4294967291) 7

/-- A stand-in for `sha256.Sum256` in the examples: the checksum in the last four bytes. -/
def toyHash (bs : List Byte) : Bytes32 :=
  ⟨List.replicate 28 0 ++
    [⟨toyAcc bs / 16777216 % 256, Nat.mod_lt _ (by decide)⟩,
     ⟨toyAcc bs / 65536 % 256, Nat.mod_lt _ (by decide)⟩,
     ⟨toyAcc bs / 256 % 256, Nat.mod_lt _ (by decide)⟩,
     ⟨toyAcc bs % 256, Nat.mod_lt _ (by decide)⟩], by simp⟩

/-- A chunk hash for the examples: 31 zero bytes and `b`. -/
def chunk (b : Byte) : Bytes32 := ⟨List.replicate 31 0 ++ [b], by simp⟩

/-- The three elements of the test `TestSimple3Item`. -/
def es3 : List element := [⟨chunk 0, 1000⟩, ⟨chunk 1, 1001⟩, ⟨chunk 2, 1002⟩]

/-- The root of the tree over `es3` with the example hash. -/
def root3 : Bytes32 := (GenerateTree toyHash es3).1

/-- The node list of the tree over `es3` with the example hash. -/
def tree3 : List node := (GenerateTree toyHash es3).2

/-- The proof that `GeneratePath` returns for the destination 1001 in the tree over `es3`. -/
def proof3 : List Byte :=
  match GeneratePath 3 root3 1001 tree3 with
  | Run.done path => path
  | _ => []

/-- Two elements with increasing boundaries of which the first is negative. -/
def esNeg : List element := [⟨chunk 3, -5⟩, ⟨chunk 4, 3⟩]

/-- The proof that `GeneratePath` returns for the destination 1 in the tree over `esNeg`. -/
def proofNeg : List Byte :=
  match GeneratePath 2 (GenerateTree toyHash esNeg).1 1 (GenerateTree toyHash esNeg).2 with
  | Run.done path => path
  | _ => []

/-- The proof that `GeneratePath` returns for the destination -6 in the tree over `esNeg`:
the proof of its first leaf. -/
def proofNegFirst : List Byte :=
  match GeneratePath 2 (GenerateTree toyHash esNeg).1 (-6) (GenerateTree toyHash esNeg).2 with
  | Run.done path => path
  | _ => []

/-! ## Encoding lemmas -/

theorem setBytes_append_singleton (l : List Byte) (b : Byte) :
    setBytes (l ++ [b]) = setBytes l * 256 + b.val := by
  simp [setBytes, List.foldl_append]

theorem setBytes_natBytesAux (f : Nat) : ∀ n, n ≤ f → setBytes (natBytesAux f n) = n := by
  induction f with
  | zero => intro n hn; have : n = 0 := by omega
            subst this; rfl
  | succ f ih =>
    intro n hn
    unfold natBytesAux
    split
    · next h => subst h; rfl
    · next h =>
      rw [setBytes_append_singleton, ih (n / 256) (by omega)]
      simp only
      omega

theorem setBytes_natBytes (n : Nat) : setBytes (natBytes n) = n :=
  setBytes_natBytesAux n n (Nat.le_refl n)

theorem length_natBytesAux_le (f : Nat) :
    ∀ n k, n < 256 ^ k → (natBytesAux f n).length ≤ k := by
  induction f with
  | zero => intro n k _; simp [natBytesAux]
  | succ f ih =>
    intro n k hk
    unfold natBytesAux
    split
    · simp
    · next h =>
      cases k with
      | zero => simp at hk; omega
      | succ k =>
        have h1 : n / 256 < 256 ^ k := by
          rw [Nat.div_lt_iff_lt_mul (by decide)]
          rw [Nat.pow_succ] at hk; exact hk
        have := ih (n / 256) k h1
        simp only [List.length_append, List.length_singleton]
        omega

theorem setBytes_replicate_zero_append (k : Nat) (l : List Byte) :
    setBytes (List.replicate k 0 ++ l) = setBytes l := by
  induction k with
  | zero => simp
  | succ k ih =>
    rw [List.replicate_succ, List.cons_append]
    have : setBytes ((0 : Byte) :: (List.replicate k 0 ++ l)) = setBytes (List.replicate k 0 ++ l) := by
      simp [setBytes]
    rw [this, ih]

theorem setBytes_LeftPadBytes (s : List Byte) (l : Nat) : setBytes (LeftPadBytes s l) = setBytes s := by
  unfold LeftPadBytes
  split
  · rfl
  · exact setBytes_replicate_zero_append _ _

theorem length_LeftPadBytes (s : List Byte) (l : Nat) (h : s.length ≤ l) :
    (LeftPadBytes s l).length = l := by
  unfold LeftPadBytes
  split
  · omega
  · simp; omega

/-- A boundary of absolute value below `2^256` is encoded in exactly 32 bytes. -/
theorem length_noteToBinary (x : Int) (h : x.natAbs < 2 ^ 256) : (noteToBinary x).length = 32 := by
  unfold noteToBinary
  apply length_LeftPadBytes
  exact length_natBytesAux_le _ _ 32 (by
    have : (256 : Nat) ^ 32 = 2 ^ 256 := by norm_num
    rw [this]; exact h)

/-- Decoding the encoding of a non-negative boundary gives the boundary back. -/
theorem setBytes_noteToBinary (x : Int) (h : 0 ≤ x) : ((setBytes (noteToBinary x) : Nat) : Int) = x := by
  unfold noteToBinary
  rw [setBytes_LeftPadBytes, setBytes_natBytes]
  omega

theorem copy32_of_length (dst : Bytes32) (src : List Byte) (h : src.length = 32) :
    copy32 dst src = ⟨src, h⟩ := by
  apply Subtype.ext
  have hd : dst.val.drop 32 = [] := List.drop_eq_nil_of_le (by rw [dst.property])
  have ht : src.take 32 = src := List.take_of_length_le (by omega)
  simp only [copy32, h, Nat.min_self, hd, ht, List.append_nil]

theorem copy32_val (dst src : Bytes32) : copy32 dst src.val = src := by
  rw [copy32_of_length dst src.val src.property]


/-! ## The validator on arbitrary proofs -/

/-- Induction along the way `validatePath` consumes segments: three at a time. -/
theorem parts_induction {α : Type} {P : List α → Prop} (h0 : P []) (h1 : ∀ a, P [a])
    (h2 : ∀ a b, P [a, b]) (h3 : ∀ a b c rest, P rest → P (a :: b :: c :: rest)) :
    ∀ l, P l
  | [] => h0
  | [a] => h1 a
  | [a, b] => h2 a b
  | a :: b :: c :: rest => h3 a b c rest (parts_induction h0 h1 h2 h3 rest)

theorem bigMin_eq_min (l r : Int) : bigMin l r = min l r := by
  unfold bigMin; split <;> omega

theorem bigMax_eq_max (l r : Int) : bigMax l r = max l r := by
  unfold bigMax; split <;> omega

/-- The running interval of `validatePath` keeps `leftBound ≤ dest < rightBound`, and a
leaf return lies inside the interval the loop started with. -/
theorem validateParts_interval (H : List Byte → Bytes32) (dest : Int) :
    ∀ (parts : List (List Byte)) (id : Bytes32) (lb rb : Int) (c : Bytes32) (L R : Int),
      lb ≤ dest → dest < rb →
      validateParts H id dest lb rb parts = Validation.leaf c L R →
      lb ≤ L ∧ L ≤ dest ∧ L < R ∧ R ≤ rb := by
  intro parts
  induction parts using parts_induction with
  | h0 => intro id lb rb c L R _ _ h; simp [validateParts] at h
  | h1 p => intro id lb rb c L R _ _ h; simp [validateParts] at h
  | h2 p0 p1 =>
    intro id lb rb c L R h1 h2 h
    simp only [validateParts] at h
    split at h
    · simp at h
    · simp only [Validation.leaf.injEq] at h
      obtain ⟨_, hL, hR⟩ := h
      subst hL; subst hR
      rw [bigMax_eq_max, bigMin_eq_min]
      omega
  | h3 left right note rest ih =>
    intro id lb rb c L R h1 h2 h
    simp only [validateParts] at h
    split at h
    · simp at h
    · split at h
      · next hlt =>
        have := ih _ _ _ c L R h1 (by rw [bigMin_eq_min]; omega) h
        rw [bigMin_eq_min] at this
        omega
      · next hge =>
        have := ih _ _ _ c L R (by rw [bigMax_eq_max]; omega) h2 h
        rw [bigMax_eq_max] at this
        omega

/-- C3. Interval containment: whenever `ValidatePath` is called with a right bound hint of at
least 1 and returns a leaf disclosure, for any root, destination and proof bytes,
`0 ≤ tightenedLeft < tightenedRight ≤ rightBoundHint`; the interval has width at least 1. -/
theorem ValidatePath_interval (H : List Byte → Bytes32) (root : Bytes32) (dest rightBound : Int)
    (path : List Byte) (chunk : Bytes32) (tightenedLeft tightenedRight : Int)
    (hhint : 1 ≤ rightBound)
    (hret : ValidatePath H root dest rightBound path
      = Validation.leaf chunk tightenedLeft tightenedRight) :
    0 ≤ tightenedLeft ∧ tightenedLeft < tightenedRight ∧ tightenedRight ≤ rightBound
      ∧ 1 ≤ tightenedRight - tightenedLeft := by
  unfold ValidatePath validatePath at hret
  simp only at hret
  split at hret
  · simp at hret
  · next parts _ =>
    have := validateParts_interval H _ parts root 0 rightBound chunk tightenedLeft tightenedRight
      (by split <;> split <;> omega) (by split <;> split <;> omega) hret
    omega


/-! ## The builder in terms of shapes -/

theorem Shape.leaves_ne_nil (t : Shape) : t.leaves ≠ [] := by
  induction t with
  | leaf e => simp [Shape.leaves]
  | branch l r ihl _ => simp [Shape.leaves, ihl]

theorem Shape.toNode_mem_nodes (H : List Byte → Bytes32) (t : Shape) : t.toNode H ∈ t.nodes H := by
  cases t <;> simp [Shape.nodes, Shape.toNode]

theorem Shape.toNode_max (H : List Byte → Bytes32) (t : Shape) : (t.toNode H).max = t.last.note := by
  induction t with
  | leaf e => rfl
  | branch l r _ ihr => simpa [Shape.toNode, generateNode, Shape.last] using ihr

theorem Shape.leaves_eq_append_last (t : Shape) : ∃ init, t.leaves = init ++ [t.last] := by
  induction t with
  | leaf e => exact ⟨[], rfl⟩
  | branch l r _ ihr =>
    obtain ⟨init, h⟩ := ihr
    exact ⟨l.leaves ++ init, by simp [Shape.leaves, Shape.last, h]⟩

theorem Shape.last_mem_leaves (t : Shape) : t.last ∈ t.leaves := by
  obtain ⟨init, h⟩ := t.leaves_eq_append_last
  rw [h]; simp

theorem Shape.height_lt_length_leaves (t : Shape) : t.height < t.leaves.length := by
  induction t with
  | leaf e => simp [Shape.height, Shape.leaves]
  | branch l r ihl ihr =>
    simp only [Shape.height, Shape.leaves, List.length_append]
    have : Nat.max l.height r.height = max l.height r.height := rfl
    omega

theorem generateRow_map_toNode (H : List Byte → Bytes32) :
    ∀ ts : List Shape, generateRow H (ts.map (Shape.toNode H)) = (pairUp ts).map (Shape.toNode H)
  | [] => rfl
  | [t] => rfl
  | l :: r :: rest => by
    simp only [List.map_cons, generateRow, pairUp, Shape.toNode]
    rw [generateRow_map_toNode H rest]

theorem pairUp_leaves : ∀ ts : List Shape,
    ((pairUp ts).map Shape.leaves).flatten = (ts.map Shape.leaves).flatten
  | [] => rfl
  | [t] => rfl
  | l :: r :: rest => by
    simp only [pairUp, List.map_cons, List.flatten_cons, Shape.leaves, List.append_assoc]
    rw [pairUp_leaves rest]

theorem length_pairUp : ∀ ts : List Shape, (pairUp ts).length = (ts.length + 1) / 2
  | [] => rfl
  | [t] => by simp [pairUp]
  | l :: r :: rest => by
    simp only [pairUp, List.length_cons, length_pairUp rest]
    omega

theorem length_generateRow (H : List Byte → Bytes32) :
    ∀ row : List node, (generateRow H row).length = (row.length + 1) / 2
  | [] => rfl
  | [t] => by simp [generateRow]
  | l :: r :: rest => by
    simp only [generateRow, List.length_cons, length_generateRow H rest]
    omega

theorem pairUp_nodes (H : List Byte → Bytes32) (tree : List node) :
    ∀ ts : List Shape, (∀ t ∈ ts, ∀ n ∈ t.nodes H, n ∈ tree) →
      ∀ t ∈ pairUp ts, ∀ n ∈ t.nodes H, n ∈ (pairUp ts).map (Shape.toNode H) ++ tree
  | [], _ => by simp [pairUp]
  | [t], h => by
    intro t' ht' n hn
    simp only [pairUp, List.mem_singleton] at ht'
    subst ht'
    exact List.mem_append_right _ (h t' (by simp) n hn)
  | l :: r :: rest, h => by
    intro t' ht' n hn
    simp only [pairUp, List.mem_cons] at ht'
    rcases ht' with rfl | ht'
    · simp only [Shape.nodes, List.mem_cons, List.mem_append] at hn
      rcases hn with rfl | hn | hn
      · simp [pairUp]
      · exact List.mem_append_right _ (h l (by simp) n hn)
      · exact List.mem_append_right _ (h r (by simp) n hn)
    · have := pairUp_nodes H tree rest (fun t ht => h t (by simp [ht])) t' ht' n hn
      simp only [pairUp, List.map_cons, List.cons_append, List.mem_cons]
      right
      exact this

/-- Every pass of the loop of `generateAllRows` shortens the row, so the bound on the
number of passes is never what ends the loop: any two bounds of at least the length of
the row give the same result. -/
theorem generateAllRowsLoop_fuel (H : List Byte → Bytes32) :
    ∀ (f g : Nat) (tree cRow : List node), cRow.length ≤ f → cRow.length ≤ g →
      generateAllRowsLoop H f tree cRow = generateAllRowsLoop H g tree cRow := by
  intro f
  induction f with
  | zero =>
    intro g tree cRow hf _
    cases g with
    | zero => rfl
    | succ g => simp [generateAllRowsLoop, show cRow.length ≤ 1 by omega]
  | succ f ih =>
    intro g tree cRow hf hg
    cases g with
    | zero => simp [generateAllRowsLoop, show cRow.length ≤ 1 by omega]
    | succ g =>
      simp only [generateAllRowsLoop]
      split
      · rfl
      · have hl := length_generateRow H cRow
        exact ih g _ _ (by omega) (by omega)

/-- The loop of `generateAllRows` only puts rows in front of the list, so the list it
returns for a non-empty start is not empty: `tree[0]` exists. -/
theorem generateAllRowsLoop_ne_nil (H : List Byte → Bytes32) :
    ∀ (fuel : Nat) (tree cRow : List node), tree ≠ [] →
      generateAllRowsLoop H fuel tree cRow ≠ [] := by
  intro fuel
  induction fuel with
  | zero => intro tree cRow h; simpa [generateAllRowsLoop] using h
  | succ fuel ih =>
    intro tree cRow h
    simp only [generateAllRowsLoop]
    split
    · exact h
    · exact ih _ _ (by simp [h])

/-- What the loop of `generateAllRows` returns when it starts from a row of shapes whose
nodes are all in `tree`: the first node of the result is the node of one shape over all
the leaves, and every node of that shape is in the result. -/
theorem generateAllRowsLoop_shape (H : List Byte → Bytes32) :
    ∀ (fuel : Nat) (ts : List Shape) (tree : List node), ts ≠ [] → ts.length ≤ fuel →
      (∀ t ∈ ts, ∀ n ∈ t.nodes H, n ∈ tree) →
      tree.head? = (ts.map (Shape.toNode H)).head? →
      ∃ t : Shape, t.leaves = (ts.map Shape.leaves).flatten ∧
        (generateAllRowsLoop H fuel tree (ts.map (Shape.toNode H))).head? = some (t.toNode H) ∧
        ∀ n ∈ t.nodes H, n ∈ generateAllRowsLoop H fuel tree (ts.map (Shape.toNode H)) := by
  intro fuel
  induction fuel with
  | zero =>
    intro ts tree hne hlen
    cases ts with
    | nil => exact absurd rfl hne
    | cons t ts => simp at hlen
  | succ fuel ih =>
    intro ts tree hne hlen hmem hhead
    simp only [generateAllRowsLoop, List.length_map]
    split
    · next h1 =>
      match ts, hne, h1 with
      | [t], _, _ =>
        refine ⟨t, by simp, ?_, ?_⟩
        · simpa using hhead
        · exact hmem t (by simp)
      | _ :: _ :: _, _, h1 => simp at h1
    · next h1 =>
      rw [generateRow_map_toNode]
      have hl := length_pairUp ts
      have hne' : pairUp ts ≠ [] := by
        intro h0; rw [h0] at hl; simp at hl; omega
      obtain ⟨t, ht1, ht2, ht3⟩ := ih (pairUp ts) ((pairUp ts).map (Shape.toNode H) ++ tree) hne'
        (by omega) (pairUp_nodes H tree ts hmem) (by
          cases hp : pairUp ts with
          | nil => exact absurd hp hne'
          | cons a b => simp)
      exact ⟨t, by rw [ht1, pairUp_leaves], ht2, ht3⟩

theorem flatten_leaves_leaf : ∀ es : List element,
    ((es.map Shape.leaf).map Shape.leaves).flatten = es
  | [] => rfl
  | e :: es => by
    simp only [List.map_cons, List.flatten_cons, Shape.leaves, List.singleton_append]
    rw [flatten_leaves_leaf es]

/-- The tree that `GenerateTree` builds from a non-empty list: there is a shape over exactly
the input elements whose node carries the returned root and whose nodes are all in
the returned list. -/
theorem GenerateTree_shape (H : List Byte → Bytes32) (es : List element) (hne : es ≠ []) :
    ∃ t : Shape, t.leaves = es ∧ (GenerateTree H es).1 = (t.toNode H).id ∧
      (GenerateTree H es).2.head? = some (t.toNode H) ∧
      ∀ n ∈ t.nodes H, n ∈ (GenerateTree H es).2 := by
  have hrow : generateLeaves H es = (es.map Shape.leaf).map (Shape.toNode H) := by
    simp [generateLeaves, Shape.toNode, List.map_map, Function.comp_def]
  obtain ⟨t, ht1, ht2, ht3⟩ := generateAllRowsLoop_shape H (es.map Shape.leaf).length
    (es.map Shape.leaf) (generateLeaves H es) (by simpa using hne) (Nat.le_refl _)
    (by
      intro t ht n hn
      simp only [List.mem_map] at ht
      obtain ⟨e, he, rfl⟩ := ht
      simp only [Shape.nodes, List.mem_singleton] at hn
      subst hn
      exact List.mem_map_of_mem _ he)
    (by rw [hrow])
  have hleaves : ((es.map Shape.leaf).map Shape.leaves).flatten = es := flatten_leaves_leaf es
  rw [hleaves] at ht1
  rw [← hrow] at ht2 ht3
  have hlen : (generateLeaves H es).length = (es.map Shape.leaf).length := by
    simp [generateLeaves]
  unfold GenerateTree generateAllRows
  cases hg : generateLeaves H es with
  | nil => simp [generateLeaves] at hg; exact absurd hg hne
  | cons a b =>
    rw [hg] at ht2 ht3 hlen
    simp only
    rw [hlen]
    cases hres : generateAllRowsLoop H (es.map Shape.leaf).length (a :: b) (a :: b) with
    | nil => rw [hres] at ht2; simp at ht2
    | cons r rs =>
      rw [hres] at ht2 ht3
      simp only [List.head?_cons, Option.some.injEq] at ht2
      subst ht2
      exact ⟨t, ht1, rfl, rfl, ht3⟩


/-! ## The generator on the built tree -/

theorem getNode_of_mem (tree : List node) (hd : DistinctIds tree) (n : node) (hn : n ∈ tree) :
    getNode n.id tree = some n := by
  unfold getNode
  cases h : tree.find? (fun m => decide (n.id = m.id)) with
  | none =>
    rw [List.find?_eq_none] at h
    have := h n hn
    simp at this
  | some m =>
    have hm := List.mem_of_find?_eq_some h
    have hid := List.find?_some h
    simp only [decide_eq_true_eq] at hid
    rw [hd n hn m hm hid]

theorem Shape.toNode_branch_type (H : List Byte → Bytes32) (l r : Shape) :
    ((Shape.branch l r).toNode H).nodeType = NODE_TYPE_BRANCH := rfl

/-- On a list without identifier clashes that holds every node of a shape, the generator
started at the shape's identifier returns the groups of its descent, as soon as the
recursion bound exceeds the height of the shape. -/
theorem generatePathParts_shape (H : List Byte → Bytes32) (dest : Int) (tree : List node)
    (hd : DistinctIds tree) :
    ∀ (t : Shape) (fuel : Nat), (∀ n ∈ t.nodes H, n ∈ tree) → t.height < fuel →
      generatePathParts fuel (t.toNode H).id dest tree
        = Run.done (proofParts (t.branches H dest) (t.target H dest)) := by
  intro t
  induction t with
  | leaf e =>
    intro fuel hmem hf
    cases fuel with
    | zero => omega
    | succ f =>
      have hn : leafNode H e ∈ tree := hmem _ (by simp [Shape.nodes])
      simp only [generatePathParts, Shape.toNode, getNode_of_mem tree hd _ hn]
      simp [leafNode, proofParts, Shape.branches, Shape.target, leafGroup]
  | branch l r ihl ihr =>
    intro fuel hmem hf
    cases fuel with
    | zero => omega
    | succ f =>
      have hn : (Shape.branch l r).toNode H ∈ tree := hmem _ (Shape.toNode_mem_nodes H _)
      have hl : ∀ n ∈ l.nodes H, n ∈ tree := fun n h => hmem n (by simp [Shape.nodes, h])
      have hr : ∀ n ∈ r.nodes H, n ∈ tree := fun n h => hmem n (by simp [Shape.nodes, h])
      have hmax : Nat.max l.height r.height = max l.height r.height := rfl
      simp only [Shape.height, hmax] at hf
      rw [generatePathParts]
      simp only [getNode_of_mem tree hd _ hn]
      have h1 : ((Shape.branch l r).toNode H).nodeType ≠ NODE_TYPE_LEAF := by
        rw [Shape.toNode_branch_type]; decide
      rw [if_neg h1, if_pos (Shape.toNode_branch_type H l r)]
      have hnote : ((Shape.branch l r).toNode H).note = (l.toNode H).max := rfl
      have hleft : ((Shape.branch l r).toNode H).left = (l.toNode H).id := rfl
      have hright : ((Shape.branch l r).toNode H).right = (r.toNode H).id := rfl
      simp only [hnote, hleft, hright]
      by_cases hlt : dest < (l.toNode H).max
      · simp only [if_pos hlt, ihl f hl (by omega), Shape.branches, Shape.target]
        simp [proofParts, branchGroup, hnote, hleft, hright]
      · simp only [if_neg hlt, ihr f hr (by omega), Shape.branches, Shape.target]
        simp [proofParts, branchGroup, hnote, hleft, hright]

/-! ## Proof bytes and segments -/

theorem partsFrom_flatten : ∀ parts : List (List Byte), (∀ p ∈ parts, p.length = 32) →
    partsFrom parts.length parts.flatten = parts
  | [], _ => rfl
  | p :: ps, h => by
    have hp : p.length = 32 := h p (by simp)
    simp only [List.length_cons, partsFrom, List.flatten_cons]
    rw [List.take_left' hp, List.drop_left' hp, partsFrom_flatten ps (fun q hq => h q (by simp [hq]))]

theorem length_flatten_parts : ∀ parts : List (List Byte), (∀ p ∈ parts, p.length = 32) →
    parts.flatten.length = 32 * parts.length
  | [], _ => rfl
  | p :: ps, h => by
    have hp : p.length = 32 := h p (by simp)
    simp only [List.flatten_cons, List.length_append, List.length_cons, hp,
      length_flatten_parts ps (fun q hq => h q (by simp [hq]))]
    omega

/-- Cutting the concatenation of 32-byte segments gives the segments back. -/
theorem pathToParts_flatten (parts : List (List Byte)) (h : ∀ p ∈ parts, p.length = 32) :
    pathToParts parts.flatten = some parts := by
  unfold pathToParts
  rw [length_flatten_parts parts h]
  simp only [Nat.mul_mod_right, ne_eq, not_true_eq_false, if_false]
  rw [Nat.mul_div_cancel_left _ (by decide : 0 < 32), partsFrom_flatten parts h]

theorem length_partsFrom (k : Nat) : ∀ path : List Byte, (partsFrom k path).length = k := by
  induction k with
  | zero => intro _; rfl
  | succ k ih => intro path; simp [partsFrom, ih]

theorem partsFrom_length_eq (k : Nat) : ∀ path : List Byte, path.length = 32 * k →
    ∀ p ∈ partsFrom k path, p.length = 32 := by
  induction k with
  | zero => intro _ _ p hp; simp [partsFrom] at hp
  | succ k ih =>
    intro path hlen p hp
    simp only [partsFrom, List.mem_cons] at hp
    rcases hp with rfl | hp
    · simp; omega
    · exact ih (path.drop 32) (by simp; omega) p hp

theorem flatten_partsFrom (k : Nat) : ∀ path : List Byte, path.length = 32 * k →
    (partsFrom k path).flatten = path := by
  induction k with
  | zero => intro path h; simp at h; simp [partsFrom, h]
  | succ k ih =>
    intro path hlen
    simp only [partsFrom, List.flatten_cons]
    rw [ih (path.drop 32) (by simp; omega), List.take_append_drop]

/-- What `pathToParts` returns on a path whose length is a multiple of 32. -/
theorem pathToParts_some (path : List Byte) (parts : List (List Byte))
    (h : pathToParts path = some parts) :
    parts.flatten = path ∧ (∀ p ∈ parts, p.length = 32) ∧ path.length = 32 * parts.length := by
  unfold pathToParts at h
  split at h
  · simp at h
  · next hmod =>
    simp only [Option.some.injEq] at h
    have hlen : path.length = 32 * (path.length / 32) := by omega
    subst h
    exact ⟨flatten_partsFrom _ path hlen, partsFrom_length_eq _ path hlen,
      by rw [length_partsFrom]; exact hlen⟩


/-! ## The validator on a generated proof -/

theorem Shape.leaves_branch_left (l r : Shape) : ∀ e ∈ l.leaves, e ∈ (Shape.branch l r).leaves :=
  fun e h => by simp [Shape.leaves, h]

theorem Shape.leaves_branch_right (l r : Shape) : ∀ e ∈ r.leaves, e ∈ (Shape.branch l r).leaves :=
  fun e h => by simp [Shape.leaves, h]

theorem Shape.toNode_max_range (H : List Byte → Bytes32) (t : Shape) (hr : InRange t.leaves) :
    0 ≤ (t.toNode H).max ∧ (t.toNode H).max < 2 ^ 256 := by
  rw [Shape.toNode_max]
  exact hr _ t.last_mem_leaves

theorem Shape.target_mem_leaves (H : List Byte → Bytes32) (dest : Int) (t : Shape) :
    t.target H dest ∈ t.leaves := by
  induction t with
  | leaf e => simp [Shape.target, Shape.leaves]
  | branch l r ihl ihr =>
    simp only [Shape.target, Shape.leaves, List.mem_append]
    split
    · exact Or.inl ihl
    · exact Or.inr ihr

theorem length_noteToBinary_of_range (x : Int) (h : 0 ≤ x ∧ x < 2 ^ 256) :
    (noteToBinary x).length = 32 := by
  apply length_noteToBinary
  have h2 : ((2 ^ 256 : Nat) : Int) = 2 ^ 256 := by norm_cast
  omega

/-- Every segment of a generated proof has 32 bytes when the boundaries are in range. -/
theorem proofParts_length (H : List Byte → Bytes32) (dest : Int) (t : Shape)
    (hr : InRange t.leaves) :
    ∀ p ∈ proofParts (t.branches H dest) (t.target H dest), p.length = 32 := by
  induction t with
  | leaf e =>
    intro p hp
    simp only [proofParts, Shape.branches, Shape.target, leafGroup, List.map_nil,
      List.flatten_nil, List.nil_append, List.mem_cons, List.mem_singleton, List.not_mem_nil,
      or_false] at hp
    rcases hp with rfl | rfl
    · exact e.data.property
    · exact length_noteToBinary_of_range _ (hr e (by simp [Shape.leaves]))
  | branch l r ihl ihr =>
    intro p hp
    have hl : InRange l.leaves := fun e h => hr e (Shape.leaves_branch_left l r e h)
    have hrr : InRange r.leaves := fun e h => hr e (Shape.leaves_branch_right l r e h)
    simp only [proofParts, Shape.branches, Shape.target, List.map_cons, List.flatten_cons,
      List.append_assoc, List.mem_append] at hp
    rcases hp with hp | hp
    · simp only [branchGroup, List.mem_cons, List.mem_singleton, List.not_mem_nil, or_false] at hp
      rcases hp with rfl | rfl | rfl
      · exact ((Shape.branch l r).toNode H).left.property
      · exact ((Shape.branch l r).toNode H).right.property
      · exact length_noteToBinary_of_range _ (Shape.toNode_max_range H l hl)
    · by_cases hlt : dest < (l.toNode H).max
      · simp only [if_pos hlt] at hp
        exact ihl hl p (by simpa [proofParts] using hp)
      · simp only [if_neg hlt] at hp
        exact ihr hrr p (by simpa [proofParts] using hp)

theorem proofParts_cons (b : node) (bs : List node) (e : element) :
    proofParts (b :: bs) e
      = b.left.val :: b.right.val :: noteToBinary b.note :: proofParts bs e := by
  simp [proofParts, branchGroup]

theorem proofParts_nil (e : element) : proofParts [] e = [e.data.val, noteToBinary e.note] := by
  simp [proofParts, leafGroup]

/-- The validator accepts the groups of the descent in a shape, started at the shape's
identifier, and returns the chunk hash of the leaf the descent ends in together with the
interval that the descent computes. -/
theorem validateParts_shape (H : List Byte → Bytes32) (dest : Int) :
    ∀ (t : Shape) (lb rb : Int), InRange t.leaves →
      validateParts H (t.toNode H).id dest lb rb (proofParts (t.branches H dest) (t.target H dest))
        = Validation.leaf (t.target H dest).data (t.bounds H dest lb rb).1
            (t.bounds H dest lb rb).2 := by
  intro t
  induction t with
  | leaf e =>
    intro lb rb hr
    have he := hr e (by simp [Shape.leaves])
    simp only [Shape.branches, Shape.target, proofParts_nil, validateParts, Shape.toNode,
      leafNode, ne_eq, not_true_eq_false, if_false, Shape.bounds, copy32_val,
      setBytes_noteToBinary e.note he.1]
  | branch l r ihl ihr =>
    intro lb rb hr
    have hl : InRange l.leaves := fun e h => hr e (Shape.leaves_branch_left l r e h)
    have hrr : InRange r.leaves := fun e h => hr e (Shape.leaves_branch_right l r e h)
    have hmax := Shape.toNode_max_range H l hl
    have hid : ((Shape.branch l r).toNode H).id
        = H ((H (l.toNode H).id.val).val ++ (H (r.toNode H).id.val).val
            ++ (H (noteToBinary (l.toNode H).max)).val) := rfl
    have hnote : ((Shape.branch l r).toNode H).note = (l.toNode H).max := rfl
    have hleft : ((Shape.branch l r).toNode H).left = (l.toNode H).id := rfl
    have hright : ((Shape.branch l r).toNode H).right = (r.toNode H).id := rfl
    simp only [Shape.branches, Shape.target, proofParts_cons, hnote, hleft, hright]
    rw [validateParts]
    simp only [hid, ne_eq, not_true_eq_false, if_false, setBytes_noteToBinary _ hmax.1,
      copy32_val, Shape.bounds]
    by_cases hlt : dest < (l.toNode H).max
    · simp only [if_pos hlt]
      exact ihl lb _ hl
    · simp only [if_neg hlt]
      exact ihr _ rb hrr

/-- Validating the bytes of a generated proof is validating its groups. -/
theorem validatePath_proofParts (H : List Byte → Bytes32) (dest lb rb : Int) (t : Shape)
    (hr : InRange t.leaves) :
    validatePath H (t.toNode H).id dest lb rb
        (proofParts (t.branches H dest) (t.target H dest)).flatten
      = Validation.leaf (t.target H dest).data (t.bounds H dest lb rb).1
          (t.bounds H dest lb rb).2 := by
  unfold validatePath
  rw [pathToParts_flatten _ (proofParts_length H dest t hr)]
  exact validateParts_shape H dest t lb rb hr

/-- The descent ends in the leaf `e` when every leaf before `e` has a boundary of at most
`dest` and, unless `e` is the last leaf, `e` and every leaf after it have a boundary
above `dest`. -/
theorem Shape.target_eq (H : List Byte → Bytes32) (dest : Int) :
    ∀ (t : Shape) (pre post : List element) (e : element), t.leaves = pre ++ e :: post →
      (∀ x ∈ pre, x.note ≤ dest) →
      (post = [] ∨ (dest < e.note ∧ ∀ x ∈ post, dest < x.note)) →
      t.target H dest = e := by
  intro t
  induction t with
  | leaf e' =>
    intro pre post e h _ _
    cases pre with
    | nil => simp only [Shape.leaves, List.nil_append, List.cons.injEq] at h; exact h.1
    | cons a pre => simp [Shape.leaves] at h
  | branch l r ihl ihr =>
    intro pre post e h hpre hpost
    simp only [Shape.leaves] at h
    simp only [Shape.target, Shape.toNode_max]
    have right_case : ∀ a', pre = l.leaves ++ a' → r.leaves = a' ++ e :: post →
        (if dest < l.last.note then l.target H dest else r.target H dest) = e := by
      intro a' h1 h2
      have hlast : l.last.note ≤ dest := hpre _ (by rw [h1]; simp [l.last_mem_leaves])
      rw [if_neg (by omega)]
      exact ihr a' post e h2 (fun x hx => hpre x (by rw [h1]; simp [hx])) hpost
    rcases List.append_eq_append_iff.mp h with ⟨a', h1, h2⟩ | ⟨c', h1, h2⟩
    · exact right_case a' h1 h2
    · cases c' with
      | nil =>
        simp only [List.append_nil] at h1
        simp only [List.nil_append] at h2
        exact right_case [] (by simp [h1]) (by simp [h2])
      | cons c c2 =>
        simp only [List.cons_append, List.cons.injEq] at h2
        obtain ⟨rfl, h2⟩ := h2
        have hne : post ≠ [] := by
          rw [h2]; simp [r.leaves_ne_nil]
        rcases hpost with hp | ⟨hp1, hp2⟩
        · exact absurd hp hne
        · have hlast : dest < l.last.note := by
            have hg : l.leaves.getLast? = some l.last := by
              obtain ⟨init, hin⟩ := l.leaves_eq_append_last
              rw [hin, List.getLast?_concat]
            rw [h1, List.getLast?_append_cons] at hg
            have hm := List.mem_of_getLast?_eq_some hg
            simp only [List.mem_cons] at hm
            rcases hm with hm | hm
            · rw [hm]; exact hp1
            · exact hp2 _ (by rw [h2]; simp [hm])
          rw [if_pos hlast]
          exact ihl pre c2 e h1 hpre (Or.inr ⟨hp1, fun x hx => hp2 x (by rw [h2]; simp [hx])⟩)

/-- The interval of the descent contains `dest` when the interval it starts from does and
the boundary of the target leaf is above `dest`. -/
theorem Shape.bounds_contains (H : List Byte → Bytes32) (dest : Int) :
    ∀ (t : Shape) (lb rb : Int), lb ≤ dest → dest < rb → dest < (t.target H dest).note →
      (t.bounds H dest lb rb).1 ≤ dest ∧ dest < (t.bounds H dest lb rb).2 := by
  intro t
  induction t with
  | leaf e =>
    intro lb rb h1 h2 h3
    simp only [Shape.target] at h3
    simp only [Shape.bounds, bigMax_eq_max, bigMin_eq_min]
    omega
  | branch l r ihl ihr =>
    intro lb rb h1 h2 h3
    simp only [Shape.target] at h3
    simp only [Shape.bounds]
    by_cases hlt : dest < (l.toNode H).max
    · simp only [if_pos hlt] at h3 ⊢
      exact ihl lb _ h1 (by rw [bigMin_eq_min]; omega) h3
    · simp only [if_neg hlt] at h3 ⊢
      exact ihr _ rb (by rw [bigMax_eq_max]; omega) h2 h3


/-! ## Round trip -/

theorem boundaryBefore_nonneg (es : List element) (hr : InRange es) (i : Nat) :
    0 ≤ boundaryBefore es i := by
  cases i with
  | zero => simp [boundaryBefore]
  | succ j =>
    simp only [boundaryBefore]
    split
    · next e he => exact (hr e (List.getElem?_mem he)).1
    · omega

/-- In an increasing list, the leaves before position `i` have boundaries of at most the
boundary before `i`. -/
theorem take_le_boundaryBefore (es : List element) (hinc : Increasing es) (i : Nat)
    (hi : i < es.length) : ∀ x ∈ es.take i, x.note ≤ boundaryBefore es i := by
  cases i with
  | zero => simp
  | succ j =>
    intro x hx
    have hj : j < es.length := by omega
    have hget : es[j]? = some es[j] := List.getElem?_eq_getElem hj
    simp only [boundaryBefore, hget]
    rw [List.take_succ, hget] at hx
    simp only [Option.toList_some, List.mem_append, List.mem_singleton] at hx
    rcases hx with hx | hx
    · have hsub : (es.take j ++ [es[j]]).Pairwise (fun a b => a.note < b.note) := by
        have : es.take (j + 1) = es.take j ++ [es[j]] := by
          rw [List.take_succ, hget]; rfl
        rw [← this]
        exact List.Pairwise.sublist (List.take_sublist _ _) hinc
      rw [List.pairwise_append] at hsub
      exact Int.le_of_lt (hsub.2.2 x hx _ (by simp))
    · rw [hx]

/-- Where the descent ends for a destination inside the range of leaf `i`. -/
theorem Shape.target_of_index (H : List Byte → Bytes32) (t : Shape) (i : Nat) (e : element)
    (dest : Int) (hinc : Increasing t.leaves) (hi : t.leaves[i]? = some e)
    (hlo : boundaryBefore t.leaves i ≤ dest) (hhi : dest < e.note) :
    t.target H dest = e := by
  have hlt : i < t.leaves.length := (List.getElem?_eq_some_iff.mp hi).1
  have hget : t.leaves[i] = e := (List.getElem?_eq_some_iff.mp hi).2
  have hsplit : t.leaves = t.leaves.take i ++ e :: t.leaves.drop (i + 1) := by
    rw [← hget, ← List.drop_eq_getElem_cons hlt, List.take_append_drop]
  apply Shape.target_eq H dest t (t.leaves.take i) (t.leaves.drop (i + 1)) e hsplit
  · intro x hx
    exact Int.le_trans (take_le_boundaryBefore _ hinc i hlt x hx) hlo
  · right
    refine ⟨hhi, ?_⟩
    intro x hx
    have hp : (t.leaves.take i ++ e :: t.leaves.drop (i + 1)).Pairwise
        (fun a b => a.note < b.note) := by rw [← hsplit]; exact hinc
    rw [List.pairwise_append] at hp
    have := (List.pairwise_cons.mp hp.2.1).1 x hx
    omega

/-- C1, amended. Round trip: for a non-empty element list with strictly increasing boundaries that are
non-negative and below `2^256`, a leaf index `i`, a destination `dest` with
`boundary(i-1) ≤ dest < boundary(i)` (`boundary(-1) = 0`) and a right bound hint above
`dest`, and when no two different nodes of the built tree share an identifier:
`GeneratePath` on the tree of `GenerateTree` returns a proof (for every recursion bound of
at least the number of elements), `ValidatePath` accepts that proof against the root,
returns exactly the chunk hash of element `i`, and the returned interval satisfies
`tightenedLeft ≤ dest < tightenedRight`. -/
theorem roundtrip (H : List Byte → Bytes32) (es : List element) (i : Nat) (e : element)
    (dest rightBound : Int)
    (hne : es ≠ []) (hinc : Increasing es) (hrange : InRange es)
    (hi : es[i]? = some e)
    (hlo : boundaryBefore es i ≤ dest) (hhi : dest < e.note) (hhint : dest < rightBound)
    (hids : DistinctIds (GenerateTree H es).2) :
    ∃ (path : List Byte) (tightenedLeft tightenedRight : Int),
      (∀ fuel, es.length ≤ fuel →
        GeneratePath fuel (GenerateTree H es).1 dest (GenerateTree H es).2 = Run.done path) ∧
      ValidatePath H (GenerateTree H es).1 dest rightBound path
        = Validation.leaf e.data tightenedLeft tightenedRight ∧
      tightenedLeft ≤ dest ∧ dest < tightenedRight := by
  obtain ⟨t, ht, hroot, _, hmem⟩ := GenerateTree_shape H es hne
  subst ht
  have htarget : t.target H dest = e := Shape.target_of_index H t i e dest hinc hi hlo hhi
  have h0 : 0 ≤ dest := Int.le_trans (boundaryBefore_nonneg _ hrange i) hlo
  have hb := Shape.bounds_contains H dest t 0 rightBound h0 hhint (by rw [htarget]; exact hhi)
  refine ⟨(proofParts (t.branches H dest) (t.target H dest)).flatten,
    (t.bounds H dest 0 rightBound).1, (t.bounds H dest 0 rightBound).2, ?_, ?_, hb.1, hb.2⟩
  · intro fuel hfuel
    unfold GeneratePath
    rw [hroot, generatePathParts_shape H dest _ hids t fuel hmem
      (Nat.lt_of_lt_of_le t.height_lt_length_leaves hfuel)]
  · unfold ValidatePath
    simp only [if_neg (Int.not_lt.mpr h0), ge_iff_le, if_neg (Int.not_le.mpr hhint)]
    rw [hroot, validatePath_proofParts H dest 0 rightBound t hrange, htarget]


/-! ## Soundness of the validator -/

theorem ValidatePath_eq_clamp (H : List Byte → Bytes32) (root : Bytes32) (dest rightBound : Int)
    (path : List Byte) :
    ValidatePath H root dest rightBound path
      = validatePath H root (clampDest dest rightBound) 0 rightBound path := rfl

theorem bytes32_append_inj {a b c d : Bytes32} (h : a.val ++ b.val = c.val ++ d.val) :
    a = c ∧ b = d := by
  have := List.append_inj h (by rw [a.property, c.property])
  exact ⟨Subtype.ext this.1, Subtype.ext this.2⟩

theorem bytes32_append3_inj {a b c d e f : Bytes32}
    (h : a.val ++ b.val ++ c.val = d.val ++ e.val ++ f.val) : a = d ∧ b = e ∧ c = f := by
  have := List.append_inj h (by simp [a.property, b.property, d.property, e.property])
  have h2 := bytes32_append_inj this.1
  exact ⟨h2.1, h2.2, Subtype.ext this.2⟩

/-- In an increasing run of leaves the last leaf has the largest boundary. -/
theorem Shape.note_le_last (t : Shape) (hinc : Increasing t.leaves) :
    ∀ x ∈ t.leaves, x.note ≤ t.last.note := by
  obtain ⟨init, hin⟩ := t.leaves_eq_append_last
  intro x hx
  unfold Increasing at hinc
  rw [hin] at hinc hx
  rw [List.pairwise_append] at hinc
  simp only [List.mem_append, List.mem_singleton] at hx
  rcases hx with hx | hx
  · exact Int.le_of_lt (hinc.2.2 x hx _ (by simp))
  · rw [hx]

theorem Shape.getLast?_leaves (t : Shape) : t.leaves.getLast? = some t.last := by
  obtain ⟨init, hin⟩ := t.leaves_eq_append_last
  rw [hin, List.getLast?_concat]

/-- The leaf the descent ends in, for increasing boundaries: the leaf with the smallest
boundary above `dest`, or the last leaf when no boundary is above `dest`. -/
theorem Shape.target_char (H : List Byte → Bytes32) (dest : Int) :
    ∀ t : Shape, Increasing t.leaves →
      (dest < (t.target H dest).note ∧
          ∀ x ∈ t.leaves, dest < x.note → (t.target H dest).note ≤ x.note) ∨
        ((∀ x ∈ t.leaves, x.note ≤ dest) ∧ t.leaves.getLast? = some (t.target H dest)) := by
  intro t
  induction t with
  | leaf e =>
    intro _
    simp only [Shape.target, Shape.leaves, List.mem_singleton, forall_eq, List.getLast?_singleton,
      and_true]
    by_cases h : dest < e.note
    · exact Or.inl ⟨h, fun _ => Int.le_refl _⟩
    · exact Or.inr (by omega)
  | branch l r ihl ihr =>
    intro hinc
    have hinc' := hinc
    unfold Increasing at hinc'
    simp only [Shape.leaves] at hinc'
    rw [List.pairwise_append] at hinc'
    obtain ⟨hl, hr, hlr⟩ := hinc'
    simp only [Shape.target, Shape.toNode_max, Shape.leaves, List.mem_append]
    by_cases hlt : dest < l.last.note
    · simp only [if_pos hlt]
      rcases ihl hl with ⟨h1, h2⟩ | ⟨h1, _⟩
      · left
        refine ⟨h1, ?_⟩
        rintro x (hx | hx) hd
        · exact h2 x hx hd
        · exact Int.le_of_lt (hlr _ (Shape.target_mem_leaves H dest l) x hx)
      · have := h1 _ l.last_mem_leaves
        omega
    · simp only [if_neg hlt]
      have hall : ∀ x ∈ l.leaves, x.note ≤ dest := fun x hx =>
        Int.le_trans (l.note_le_last hl x hx) (by omega)
      rcases ihr hr with ⟨h1, h2⟩ | ⟨h1, h2⟩
      · left
        refine ⟨h1, ?_⟩
        rintro x (hx | hx) hd
        · have := hall x hx
          omega
        · exact h2 x hx hd
      · right
        refine ⟨?_, ?_⟩
        · rintro x (hx | hx)
          · exact hall x hx
          · exact h1 x hx
        · rw [List.getLast?_append, h2]; rfl

theorem nodeHashInputs_leafNode (H : List Byte → Bytes32) (e : element) :
    nodeHashInputs H (leafNode H e)
      = [e.data.val, noteToBinary e.note,
          (H e.data.val).val ++ (H (noteToBinary e.note)).val] := rfl

theorem nodeHashInputs_branch (H : List Byte → Bytes32) (l r : Shape) :
    nodeHashInputs H ((Shape.branch l r).toNode H)
      = [(l.toNode H).id.val, (r.toNode H).id.val, noteToBinary (l.toNode H).max,
          (H (l.toNode H).id.val).val ++ (H (r.toNode H).id.val).val
            ++ (H (noteToBinary (l.toNode H).max)).val] := rfl

/-- Soundness of the group checks: when the hash has no collision among the byte strings
hashed for the nodes of a shape and for the groups of a proof, a proof accepted against the
identifier of the shape discloses the chunk hash of the leaf that the descent ends in. -/
theorem validateParts_sound (H : List Byte → Bytes32) (dest : Int) (S : List (List Byte))
    (hS : NoCollision H S) :
    ∀ (t : Shape) (parts : List (List Byte)) (lb rb : Int) (c : Bytes32) (L R : Int),
      InRange t.leaves → (∀ p ∈ parts, p.length = 32) →
      (∀ n ∈ t.nodes H, ∀ x ∈ nodeHashInputs H n, x ∈ S) →
      (∀ x ∈ partsHashInputs H parts, x ∈ S) →
      validateParts H (t.toNode H).id dest lb rb parts = Validation.leaf c L R →
      c = (t.target H dest).data := by
  intro t
  induction t with
  | leaf e =>
    intro parts lb rb c L R _ hlen hnode hparts hv
    have hin : ∀ x ∈ nodeHashInputs H (leafNode H e), x ∈ S :=
      hnode _ (by simp [Shape.nodes])
    rw [nodeHashInputs_leafNode] at hin
    match parts, hlen, hparts, hv with
    | [], _, _, hv => simp [validateParts] at hv
    | [_], _, _, hv => simp [validateParts] at hv
    | [p0, p1], hlen, hparts, hv =>
      simp only [validateParts] at hv
      split at hv
      · simp at hv
      · next hh =>
        simp only [ne_eq, Decidable.not_not] at hh
        simp only [Validation.leaf.injEq] at hv
        have heq := hS _ (hparts _ (by simp [partsHashInputs])) _ (hin _ (by simp)) hh
        have h2 := bytes32_append_inj heq
        have hp0 : p0 = e.data.val :=
          hS _ (hparts _ (by simp [partsHashInputs])) _ (hin _ (by simp)) h2.1
        rw [← hv.1, hp0, copy32_val]
        rfl
    | a :: b :: c' :: rest, _, hparts, hv =>
      rw [validateParts] at hv
      simp only at hv
      split at hv
      · simp at hv
      · next hh =>
        simp only [ne_eq, Decidable.not_not] at hh
        have heq := hS _ (hparts _ (by simp [partsHashInputs])) _ (hin _ (by simp)) hh
        have := congrArg List.length heq
        simp [Subtype.property] at this
  | branch l r ihl ihr =>
    intro parts lb rb c L R hrange hlen hnode hparts hv
    have hl : InRange l.leaves := fun e h => hrange e (Shape.leaves_branch_left l r e h)
    have hr : InRange r.leaves := fun e h => hrange e (Shape.leaves_branch_right l r e h)
    have hnl : ∀ n ∈ l.nodes H, ∀ x ∈ nodeHashInputs H n, x ∈ S :=
      fun n h => hnode n (by simp [Shape.nodes, h])
    have hnr : ∀ n ∈ r.nodes H, ∀ x ∈ nodeHashInputs H n, x ∈ S :=
      fun n h => hnode n (by simp [Shape.nodes, h])
    have hin : ∀ x ∈ nodeHashInputs H ((Shape.branch l r).toNode H), x ∈ S :=
      hnode _ (Shape.toNode_mem_nodes H _)
    rw [nodeHashInputs_branch] at hin
    have hid : ((Shape.branch l r).toNode H).id
        = H ((H (l.toNode H).id.val).val ++ (H (r.toNode H).id.val).val
            ++ (H (noteToBinary (l.toNode H).max)).val) := rfl
    match parts, hlen, hparts, hv with
    | [], _, _, hv => simp [validateParts] at hv
    | [_], _, _, hv => simp [validateParts] at hv
    | [p0, p1], _, hparts, hv =>
      simp only [validateParts] at hv
      split at hv
      · simp at hv
      · next hh =>
        simp only [ne_eq, Decidable.not_not] at hh
        rw [hid] at hh
        have heq := hS _ (hparts _ (by simp [partsHashInputs])) _ (hin _ (by simp)) hh
        have := congrArg List.length heq
        simp [Subtype.property] at this
    | a :: b :: c' :: rest, hlen, hparts, hv =>
      rw [validateParts] at hv
      simp only at hv
      split at hv
      · simp at hv
      · next hh =>
        simp only [ne_eq, Decidable.not_not] at hh
        rw [hid] at hh
        have heq := hS _ (hparts _ (by simp [partsHashInputs])) _ (hin _ (by simp)) hh
        obtain ⟨h1, h2, h3⟩ := bytes32_append3_inj heq
        have ha : a = (l.toNode H).id.val :=
          hS _ (hparts _ (by simp [partsHashInputs])) _ (hin _ (by simp)) h1
        have hb : b = (r.toNode H).id.val :=
          hS _ (hparts _ (by simp [partsHashInputs])) _ (hin _ (by simp)) h2
        have hc : c' = noteToBinary (l.toNode H).max :=
          hS _ (hparts _ (by simp [partsHashInputs])) _ (hin _ (by simp)) h3
        have hrest : ∀ p ∈ rest, p.length = 32 := fun p hp => hlen p (by simp [hp])
        have hprest : ∀ x ∈ partsHashInputs H rest, x ∈ S :=
          fun x hx => hparts x (by simp [partsHashInputs, hx])
        subst ha; subst hb; subst hc
        rw [setBytes_noteToBinary _ (Shape.toNode_max_range H l hl).1, copy32_val,
          copy32_val] at hv
        simp only [Shape.target]
        split at hv
        · next hlt =>
          rw [if_pos hlt]
          exact ihl rest _ _ c L R hl hrest hnl hprest hv
        · next hlt =>
          rw [if_neg hlt]
          exact ihr rest _ _ c L R hr hrest hnr hprest hv

/-- The loop of `validatePath` reaches the statement after it only when the number of
segments is a multiple of three. -/
theorem validateParts_fellThrough (H : List Byte → Bytes32) (dest : Int) :
    ∀ (parts : List (List Byte)) (id : Bytes32) (lb rb : Int),
      validateParts H id dest lb rb parts = Validation.fellThrough → parts.length % 3 = 0 := by
  intro parts
  induction parts using parts_induction with
  | h0 => intros; rfl
  | h1 p => intro id lb rb h; simp [validateParts] at h
  | h2 p0 p1 =>
    intro id lb rb h
    simp only [validateParts] at h
    split at h <;> simp at h
  | h3 left right note rest ih =>
    intro id lb rb h
    rw [validateParts] at h
    simp only at h
    have hl : (left :: right :: note :: rest).length = rest.length + 3 := by simp
    rw [hl, Nat.add_mod_right]
    split at h
    · simp at h
    · split at h
      · exact ih _ _ _ h
      · exact ih _ _ _ h


theorem pathToParts_of_length (path : List Byte) (k : Nat) (h : path.length = 32 * k) :
    ∃ parts, pathToParts path = some parts ∧ parts.length = k := by
  refine ⟨partsFrom (path.length / 32) path, ?_, ?_⟩
  · unfold pathToParts
    rw [if_neg]
    simp [h]
  · rw [length_partsFrom, h, Nat.mul_div_cancel_left _ (by decide : 0 < 32)]

theorem errIsNil_cases (v : Validation) (h : v.errIsNil = true) :
    v = Validation.fellThrough ∨ ∃ c L R, v = Validation.leaf c L R := by
  cases v with
  | leaf c L R => exact Or.inr ⟨c, L, R, rfl⟩
  | failed e => simp [Validation.errIsNil] at h
  | fellThrough => exact Or.inl rfl
  | panicked p => simp [Validation.errIsNil] at h

/-- C2, amended. Soundness of validation: for a non-empty element list with strictly increasing
boundaries that are non-negative and below `2^256`, the root of `GenerateTree`, any
destination, any right bound hint and any proof of `96*d+64` bytes, produced by
`GeneratePath` or not: when the hash has no collision among the byte strings hashed by the
builder and by the validator, a proof that `ValidatePath` accepts discloses the chunk
hash of an input element, namely of the element with the smallest boundary above the
clamped destination, or of the last element when no boundary is above it. -/
theorem ValidatePath_sound (H : List Byte → Bytes32) (es : List element) (dest rightBound : Int)
    (proof : List Byte) (d : Nat)
    (hne : es ≠ []) (hinc : Increasing es) (hrange : InRange es)
    (hlen : proof.length = 96 * d + 64)
    (hcoll : NoCollision H
      (treeHashInputs H (GenerateTree H es).2 ++ proofHashInputs H proof))
    (hacc : (ValidatePath H (GenerateTree H es).1 dest rightBound proof).errIsNil = true) :
    ∃ (e : element) (tightenedLeft tightenedRight : Int), e ∈ es ∧
      ValidatePath H (GenerateTree H es).1 dest rightBound proof
        = Validation.leaf e.data tightenedLeft tightenedRight ∧
      ((clampDest dest rightBound < e.note ∧
          ∀ x ∈ es, clampDest dest rightBound < x.note → e.note ≤ x.note) ∨
        ((∀ x ∈ es, x.note ≤ clampDest dest rightBound) ∧ es.getLast? = some e)) := by
  obtain ⟨t, ht, hroot, _, hmem⟩ := GenerateTree_shape H es hne
  obtain ⟨parts, hparts, hplen⟩ := pathToParts_of_length proof (3 * d + 2) (by omega)
  have hp32 := (pathToParts_some proof parts hparts).2.1
  have hv : ValidatePath H (GenerateTree H es).1 dest rightBound proof
      = validateParts H (t.toNode H).id (clampDest dest rightBound) 0 rightBound parts := by
    rw [ValidatePath_eq_clamp, hroot]
    unfold validatePath
    rw [hparts]
  rw [hv] at hacc ⊢
  rcases errIsNil_cases _ hacc with hft | ⟨c, L, R, hleaf⟩
  · have := validateParts_fellThrough H _ parts _ _ _ hft
    omega
  · have hc := validateParts_sound H (clampDest dest rightBound) _ hcoll t parts 0 rightBound
      c L R (by rw [ht]; exact hrange) hp32
      (by
        intro n hn x hx
        apply List.mem_append_left
        unfold treeHashInputs
        rw [List.mem_flatten]
        exact ⟨_, List.mem_map_of_mem _ (hmem n hn), hx⟩)
      (by
        intro x hx
        apply List.mem_append_right
        unfold proofHashInputs
        rw [hparts]
        exact hx)
      hleaf
    refine ⟨t.target H (clampDest dest rightBound), L, R, ?_, ?_, ?_⟩
    · rw [← ht]; exact Shape.target_mem_leaves H _ t
    · rw [hleaf, hc]
    · have := Shape.target_char H (clampDest dest rightBound) t (by rw [ht]; exact hinc)
      rw [ht] at this
      exact this


/-! ## Tamper sensitivity -/

/-- Two different segment lists of the same length: when the hash has no collision among
the byte strings hashed for their groups and the first list is accepted, the second one
fails with a hash mismatch. -/
theorem validateParts_tamper (H : List Byte → Bytes32) (dest : Int) (S : List (List Byte))
    (hS : NoCollision H S) :
    ∀ (parts parts' : List (List Byte)) (id : Bytes32) (lb rb : Int),
      parts.length = parts'.length → parts ≠ parts' →
      (∀ x ∈ partsHashInputs H parts, x ∈ S) → (∀ x ∈ partsHashInputs H parts', x ∈ S) →
      (validateParts H id dest lb rb parts).errIsNil = true →
      validateParts H id dest lb rb parts' = Validation.failed PathError.hashMismatch := by
  intro parts
  induction parts using parts_induction with
  | h0 =>
    intro parts' id lb rb hlen hne _ _ _
    cases parts' with
    | nil => exact absurd rfl hne
    | cons a l => simp at hlen
  | h1 p =>
    intro parts' id lb rb _ _ _ _ hacc
    simp [validateParts, Validation.errIsNil] at hacc
  | h2 p0 p1 =>
    intro parts' id lb rb hlen hne hin hin' hacc
    match parts', hlen, hne, hin' with
    | [q0, q1], _, hne, hin' =>
      simp only [validateParts] at hacc ⊢
      split at hacc
      · simp [Validation.errIsNil] at hacc
      · next hh =>
        simp only [ne_eq, Decidable.not_not] at hh
        split
        · rfl
        · next hh' =>
          simp only [ne_eq, Decidable.not_not] at hh'
          exfalso
          have heq := hS _ (hin _ (by simp [partsHashInputs])) _
            (hin' _ (by simp [partsHashInputs])) (hh.trans hh'.symm)
          have h2 := bytes32_append_inj heq
          have e0 : p0 = q0 := hS _ (hin _ (by simp [partsHashInputs])) _
            (hin' _ (by simp [partsHashInputs])) h2.1
          have e1 : p1 = q1 := hS _ (hin _ (by simp [partsHashInputs])) _
            (hin' _ (by simp [partsHashInputs])) h2.2
          exact hne (by rw [e0, e1])
  | h3 a b c rest ih =>
    intro parts' id lb rb hlen hne hin hin' hacc
    match parts', hlen, hne, hin' with
    | a' :: b' :: c' :: rest', hlen, hne, hin' =>
      rw [validateParts] at hacc ⊢
      simp only at hacc ⊢
      split at hacc
      · simp [Validation.errIsNil] at hacc
      · next hh =>
        simp only [ne_eq, Decidable.not_not] at hh
        split
        · rfl
        · next hh' =>
          simp only [ne_eq, Decidable.not_not] at hh'
          have heq := hS _ (hin _ (by simp [partsHashInputs])) _
            (hin' _ (by simp [partsHashInputs])) (hh.trans hh'.symm)
          obtain ⟨h1, h2, h3⟩ := bytes32_append3_inj heq
          have ea : a = a' := hS _ (hin _ (by simp [partsHashInputs])) _
            (hin' _ (by simp [partsHashInputs])) h1
          have eb : b = b' := hS _ (hin _ (by simp [partsHashInputs])) _
            (hin' _ (by simp [partsHashInputs])) h2
          have ec : c = c' := hS _ (hin _ (by simp [partsHashInputs])) _
            (hin' _ (by simp [partsHashInputs])) h3
          subst ea; subst eb; subst ec
          have hrest : rest ≠ rest' := fun h => hne (by rw [h])
          have hl : rest.length = rest'.length := by simpa using hlen
          have hr : ∀ x ∈ partsHashInputs H rest, x ∈ S :=
            fun x hx => hin x (by simp [partsHashInputs, hx])
          have hr' : ∀ x ∈ partsHashInputs H rest', x ∈ S :=
            fun x hx => hin' x (by simp [partsHashInputs, hx])
          split at hacc
          · next hlt =>
            rw [if_pos hlt]
            exact ih rest' _ _ _ hl hrest hr hr' hacc
          · next hlt =>
            rw [if_neg hlt]
            exact ih rest' _ _ _ hl hrest hr hr' hacc

/-- C4. Tamper sensitivity: when `ValidatePath` accepts a proof and one byte of the proof is
replaced by a different byte, `ValidatePath` with the same root, destination and right bound
hint fails with the hash-mismatch error, provided the hash has no collision among the byte
strings hashed while checking the groups of the two proofs. -/
theorem ValidatePath_tamper (H : List Byte → Bytes32) (root : Bytes32) (dest rightBound : Int)
    (proof : List Byte) (i : Nat) (b : Byte)
    (hi : i < proof.length) (hb : proof[i] ≠ b)
    (hacc : (ValidatePath H root dest rightBound proof).errIsNil = true)
    (hcoll : NoCollision H (proofHashInputs H proof ++ proofHashInputs H (proof.set i b))) :
    ValidatePath H root dest rightBound (proof.set i b)
      = Validation.failed PathError.hashMismatch := by
  rw [ValidatePath_eq_clamp] at hacc ⊢
  unfold validatePath at hacc ⊢
  cases hp : pathToParts proof with
  | none => rw [hp] at hacc; simp [Validation.errIsNil] at hacc
  | some parts =>
    rw [hp] at hacc
    obtain ⟨hflat, _, hlen⟩ := pathToParts_some proof parts hp
    obtain ⟨parts', hp', hlen'⟩ := pathToParts_of_length (proof.set i b) parts.length
      (by rw [List.length_set]; exact hlen)
    obtain ⟨hflat', _, _⟩ := pathToParts_some _ parts' hp'
    rw [hp']
    simp only
    have hne : parts ≠ parts' := by
      intro h
      have hbad : proof = proof.set i b := by rw [← hflat', ← h, hflat]
      have hget : (proof.set i b)[i]? = some b := by simp [hi]
      rw [← hbad] at hget
      rw [List.getElem?_eq_getElem hi] at hget
      exact hb (Option.some.inj hget)
    exact validateParts_tamper H _ _ hcoll parts parts' root 0 rightBound hlen'.symm hne
      (by
        intro x hx
        apply List.mem_append_left
        unfold proofHashInputs; rw [hp]; exact hx)
      (by
        intro x hx
        apply List.mem_append_right
        unfold proofHashInputs; rw [hp']; exact hx)
      hacc


/-! ## Malformed and short proofs -/

/-- C5. A proof of one byte, whose length is not a multiple of 32, makes `ValidatePath` panic
in `pathToParts` with `inccorect path`; no error value is returned to the caller. -/
theorem ValidatePath_one_byte_panics (H : List Byte → Bytes32) (root : Bytes32)
    (dest rightBound : Int) :
    ValidatePath H root dest rightBound [0] = Validation.panicked Panic.incorrectPath := by
  rfl

/-- C6. On the empty proof `ValidatePath` does not fail with the insufficient-proof error: the
loop body never runs and the statement commented `never reach here` returns a zero hash,
nil bounds and a nil error. -/
theorem ValidatePath_empty_proof (H : List Byte → Bytes32) (root : Bytes32)
    (dest rightBound : Int) :
    ValidatePath H root dest rightBound [] = Validation.fellThrough ∧
      (ValidatePath H root dest rightBound []).errIsNil = true := by
  constructor <;> rfl

/-! ## Single leaf and empty input -/

/-- C8. Empty input: `GenerateTree` on the empty element list returns the all-zero 32-byte
identifier and an empty node list. -/
theorem GenerateTree_nil (H : List Byte → Bytes32) :
    GenerateTree H [] = (zero32, []) ∧ zero32.val = List.replicate 32 0 := by
  constructor <;> rfl


/-! ## Proof wire format -/

theorem Shape.branches_mem (H : List Byte → Bytes32) (dest : Int) :
    ∀ t : Shape, ∀ b ∈ t.branches H dest, b ∈ t.nodes H ∧ b.nodeType = NODE_TYPE_BRANCH := by
  intro t
  induction t with
  | leaf e => intro b hb; simp [Shape.branches] at hb
  | branch l r ihl ihr =>
    intro b hb
    simp only [Shape.branches, List.mem_cons] at hb
    rcases hb with rfl | hb
    · exact ⟨Shape.toNode_mem_nodes H _, rfl⟩
    · by_cases hlt : dest < (l.toNode H).max
      · rw [if_pos hlt] at hb
        exact ⟨by simp [Shape.nodes, (ihl b hb).1], (ihl b hb).2⟩
      · rw [if_neg hlt] at hb
        exact ⟨by simp [Shape.nodes, (ihr b hb).1], (ihr b hb).2⟩

theorem Shape.isDescent (H : List Byte → Bytes32) (dest : Int) :
    ∀ t : Shape,
      IsDescent dest (t.toNode H).id (t.branches H dest) (leafNode H (t.target H dest)) := by
  intro t
  induction t with
  | leaf e => simp [IsDescent, Shape.branches, Shape.target, Shape.toNode]
  | branch l r ihl ihr =>
    have hnote : ((Shape.branch l r).toNode H).note = (l.toNode H).max := rfl
    have hleft : ((Shape.branch l r).toNode H).left = (l.toNode H).id := rfl
    have hright : ((Shape.branch l r).toNode H).right = (r.toNode H).id := rfl
    simp only [Shape.branches, Shape.target, IsDescent, hnote, hleft, hright, true_and]
    by_cases hlt : dest < (l.toNode H).max
    · simp only [if_pos hlt]; exact ihl
    · simp only [if_neg hlt]; exact ihr

theorem flatten_proofParts (bs : List node) (e : element) :
    (proofParts bs e).flatten
      = (bs.map (fun b => b.left.val ++ b.right.val ++ noteToBinary b.note)).flatten
          ++ (e.data.val ++ noteToBinary e.note) := by
  induction bs with
  | nil => simp [proofParts_nil]
  | cons b bs ih => rw [proofParts_cons]; simp [ih]

theorem generateRow_ne_nil (H : List Byte → Bytes32) (row : List node) (h : row ≠ []) :
    generateRow H row ≠ [] := by
  match row, h with
  | [a], _ => simp [generateRow]
  | a :: b :: rest, _ => simp [generateRow]

theorem generateRow_odd (H : List Byte → Bytes32) :
    ∀ (k : Nat) (row : List node), row.length = 2 * k + 1 →
      (generateRow H row).length = k + 1 ∧ (generateRow H row).getLast? = row.getLast? := by
  intro k
  induction k with
  | zero =>
    intro row h
    match row, h with
    | [a], _ => simp [generateRow, generateNode]
  | succ k ih =>
    intro row h
    match row, h with
    | a :: b :: rest, h =>
      have hr : rest.length = 2 * k + 1 := by simp at h; omega
      have hne : rest ≠ [] := by intro h0; rw [h0] at hr; simp at hr
      obtain ⟨h1, h2⟩ := ih rest hr
      obtain ⟨x, xs, hx⟩ := List.exists_cons_of_ne_nil (generateRow_ne_nil H rest hne)
      obtain ⟨y, ys, hy⟩ := List.exists_cons_of_ne_nil hne
      refine ⟨by simp [generateRow, h1], ?_⟩
      simp only [generateRow]
      rw [hx] at h2 ⊢
      rw [List.getLast?_cons_cons, h2, hy, List.getLast?_cons_cons, List.getLast?_cons_cons]

/-- C10. Odd-count promotion: for a row of odd length `2k+1`, `generateRow` returns `k+1`
nodes whose last node is the last node of the input row, unchanged; and for three elements
the row above the leaves is `[pair(leaf0, leaf1), leaf2]`, with `leaf2` the leaf node
itself, and the root is the identifier of `pair(pair(leaf0, leaf1), leaf2)`. -/
theorem odd_promotion (H : List Byte → Bytes32) (row : List node) (k : Nat)
    (e0 e1 e2 : element) (hodd : row.length = 2 * k + 1) :
    (generateRow H row).length = k + 1 ∧
    (generateRow H row).getLast? = row.getLast? ∧
    generateRow H (generateLeaves H [e0, e1, e2])
      = [generateNode H (leafNode H e0) (some (leafNode H e1)), leafNode H e2] ∧
    (GenerateTree H [e0, e1, e2]).1
      = (generateNode H (generateNode H (leafNode H e0) (some (leafNode H e1)))
          (some (leafNode H e2))).id := by
  refine ⟨(generateRow_odd H k row hodd).1, (generateRow_odd H k row hodd).2, rfl, rfl⟩


/-! ## The theorems at the three elements of `TestSimple3Item` -/

/-- The round trip at the third element of `es3` with destination 1001 and hint 1003. -/
theorem roundtrip_witness :
    es3 ≠ [] ∧ Increasing es3 ∧ InRange es3 ∧ es3[2]? = some ⟨chunk 2, 1002⟩ ∧
    boundaryBefore es3 2 ≤ 1001 ∧ DistinctIds (GenerateTree toyHash es3).2 ∧
    ∃ (path : List Byte) (tightenedLeft tightenedRight : Int),
      (∀ fuel, es3.length ≤ fuel →
        GeneratePath fuel (GenerateTree toyHash es3).1 1001 (GenerateTree toyHash es3).2
          = Run.done path) ∧
      ValidatePath toyHash (GenerateTree toyHash es3).1 1001 1003 path
        = Validation.leaf (chunk 2) tightenedLeft tightenedRight ∧
      tightenedLeft ≤ 1001 ∧ 1001 < tightenedRight :=
  ⟨by decide, by decide, by decide, by decide, by decide, by decide,
    roundtrip toyHash es3 2 ⟨chunk 2, 1002⟩ 1001 1003 (by decide) (by decide) (by decide)
      (by decide) (by decide) (by decide) (by decide) (by decide)⟩

/-- Interval containment at the proof generated for destination 1001 in the tree over `es3`. -/
theorem ValidatePath_interval_witness :
    ValidatePath toyHash root3 1001 1003 proof3 = Validation.leaf (chunk 2) 1001 1002 ∧
    (0 ≤ (1001 : Int) ∧ (1001 : Int) < 1002 ∧ (1002 : Int) ≤ 1003 ∧ 1 ≤ (1002 : Int) - 1001) :=
  ⟨by decide, ValidatePath_interval toyHash root3 1001 1003 proof3 (chunk 2) 1001 1002
    (by decide) (by decide)⟩

/-- Replacing the first byte of the proof generated for destination 1001 by the byte 1. -/
theorem ValidatePath_tamper_witness :
    (ValidatePath toyHash root3 1001 1003 proof3).errIsNil = true ∧
    NoCollision toyHash (proofHashInputs toyHash proof3 ++ proofHashInputs toyHash (proof3.set 0 1)) ∧
    ValidatePath toyHash root3 1001 1003 (proof3.set 0 1)
      = Validation.failed PathError.hashMismatch :=
  ⟨by decide, by decide,
    ValidatePath_tamper toyHash root3 1001 1003 proof3 0 1 (by decide) (by decide) (by decide)
      (by decide)⟩


/-- Soundness at the proof generated for destination 1001 in the tree over `es3`. -/
theorem ValidatePath_sound_witness :
    es3 ≠ [] ∧ Increasing es3 ∧ InRange es3 ∧ proof3.length = 96 * 1 + 64 ∧
    NoCollision toyHash
      (treeHashInputs toyHash (GenerateTree toyHash es3).2 ++ proofHashInputs toyHash proof3) ∧
    (ValidatePath toyHash (GenerateTree toyHash es3).1 1001 1003 proof3).errIsNil = true ∧
    ∃ (e : element) (tightenedLeft tightenedRight : Int), e ∈ es3 ∧
      ValidatePath toyHash (GenerateTree toyHash es3).1 1001 1003 proof3
        = Validation.leaf e.data tightenedLeft tightenedRight ∧
      ((clampDest 1001 1003 < e.note ∧
          ∀ x ∈ es3, clampDest 1001 1003 < x.note → e.note ≤ x.note) ∨
        ((∀ x ∈ es3, x.note ≤ clampDest 1001 1003) ∧ es3.getLast? = some e)) :=
  ⟨by decide, by decide, by decide, by decide, by decide, by decide,
    ValidatePath_sound toyHash es3 1001 1003 proof3 1 (by decide) (by decide) (by decide)
      (by decide) (by decide) (by decide)⟩

/-- The row of the three leaves of `es3` is odd: its last leaf is promoted. -/
theorem odd_promotion_witness :
    (generateLeaves toyHash es3).length = 2 * 1 + 1 ∧
    (generateRow toyHash (generateLeaves toyHash es3)).length = 1 + 1 ∧
    (generateRow toyHash (generateLeaves toyHash es3)).getLast?
      = (generateLeaves toyHash es3).getLast? ∧
    generateRow toyHash (generateLeaves toyHash [⟨chunk 0, 1000⟩, ⟨chunk 1, 1001⟩, ⟨chunk 2, 1002⟩])
      = [generateNode toyHash (leafNode toyHash ⟨chunk 0, 1000⟩)
          (some (leafNode toyHash ⟨chunk 1, 1001⟩)), leafNode toyHash ⟨chunk 2, 1002⟩] ∧
    (GenerateTree toyHash [⟨chunk 0, 1000⟩, ⟨chunk 1, 1001⟩, ⟨chunk 2, 1002⟩]).1
      = (generateNode toyHash (generateNode toyHash (leafNode toyHash ⟨chunk 0, 1000⟩)
          (some (leafNode toyHash ⟨chunk 1, 1001⟩))) (some (leafNode toyHash ⟨chunk 2, 1002⟩))).id :=
  ⟨by decide, odd_promotion toyHash (generateLeaves toyHash es3) 1 ⟨chunk 0, 1000⟩
    ⟨chunk 1, 1001⟩ ⟨chunk 2, 1002⟩ (by decide)⟩


/-! ## Node derivation -/

/-- C11. Asymmetric branch hashing: for every pair of nodes with the right one present,
`generateNode` returns a branch whose identifier is
`hash(hash(left.id) ‖ hash(right.id) ‖ hash(encode(left.max)))`, whose `left` and `right` are
the identifiers of the two nodes, whose `note` is `left.max` and whose `max` is `right.max`;
`right.max` is not an input of the identifier: changing it leaves the identifier the same. -/
theorem generateNode_branch (H : List Byte → Bytes32) (left right : node) :
    (generateNode H left (some right)).id
      = H ((H left.id.val).val ++ (H right.id.val).val ++ (H (noteToBinary left.max)).val) ∧
    (generateNode H left (some right)).nodeType = NODE_TYPE_BRANCH ∧
    (generateNode H left (some right)).left = left.id ∧
    (generateNode H left (some right)).right = right.id ∧
    (generateNode H left (some right)).note = left.max ∧
    (generateNode H left (some right)).max = right.max ∧
    ∀ m : Int, (generateNode H left (some { right with max := m })).id
      = (generateNode H left (some right)).id :=
  ⟨rfl, rfl, rfl, rfl, rfl, rfl, fun _ => rfl⟩

/-- C12. Leaf derivation: `generateLeaves` returns as many nodes as there are elements, in
input order; the node at position `i` has kind Leaf, the data of element `i`, note and max
equal to its boundary, and the identifier `hash(hash(data) ‖ hash(encode(note)))`, where
`encode` is `noteToBinary`: 32 bytes that decode to the boundary when the boundary is
non-negative and below `2^256`. -/
theorem generateLeaves_spec (H : List Byte → Bytes32) (es : List element) (i : Nat) (e : element)
    (he : es[i]? = some e) :
    (generateLeaves H es).length = es.length ∧
    ∃ n : node, (generateLeaves H es)[i]? = some n ∧
      n.nodeType = NODE_TYPE_LEAF ∧ n.data = e.data ∧ n.note = e.note ∧ n.max = e.note ∧
      n.id = H ((H e.data.val).val ++ (H (noteToBinary e.note)).val) ∧
      (0 ≤ e.note → e.note < 2 ^ 256 →
        (noteToBinary e.note).length = 32 ∧ ((setBytes (noteToBinary e.note) : Nat) : Int) = e.note) := by
  refine ⟨by simp [generateLeaves], leafNode H e, ?_, rfl, rfl, rfl, rfl, rfl, ?_⟩
  · simp [generateLeaves, he]
  · intro h0 h1
    exact ⟨length_noteToBinary_of_range _ ⟨h0, h1⟩, setBytes_noteToBinary _ h0⟩

/-! ## Clamping -/

/-- C13. Clamping of the destination: for a right bound hint of at least 1, any root and any
proof, `ValidatePath` with a negative destination returns what it returns for destination 0,
with a destination of at least the hint it returns what it returns for `hint - 1`, and with a
destination in `[0, hint)` the descent of `validatePath` runs with that destination. -/
theorem ValidatePath_clamp (H : List Byte → Bytes32) (root : Bytes32) (rightBound : Int)
    (path : List Byte) (hhint : 1 ≤ rightBound) :
    (∀ dest : Int, dest < 0 →
      ValidatePath H root dest rightBound path = ValidatePath H root 0 rightBound path) ∧
    (∀ dest : Int, rightBound ≤ dest →
      ValidatePath H root dest rightBound path
        = ValidatePath H root (rightBound - 1) rightBound path) ∧
    (∀ dest : Int, 0 ≤ dest → dest < rightBound →
      ValidatePath H root dest rightBound path = validatePath H root dest 0 rightBound path) := by
  refine ⟨?_, ?_, ?_⟩
  · intro dest hd
    have h1 : clampDest dest rightBound = 0 := by
      unfold clampDest; simp only [if_pos hd]; rw [if_neg (by omega)]
    have h2 : clampDest 0 rightBound = 0 := by
      unfold clampDest; simp only [Int.lt_irrefl, if_false]; rw [if_neg (by omega)]
    rw [ValidatePath_eq_clamp, ValidatePath_eq_clamp, h1, h2]
  · intro dest hd
    have h1 : clampDest dest rightBound = rightBound - 1 := by
      unfold clampDest; simp only [if_neg (show ¬ dest < 0 by omega)]; rw [if_pos (by omega)]
    have h2 : clampDest (rightBound - 1) rightBound = rightBound - 1 := by
      unfold clampDest
      simp only [if_neg (show ¬ rightBound - 1 < 0 by omega)]
      rw [if_neg (by omega)]
    rw [ValidatePath_eq_clamp, ValidatePath_eq_clamp, h1, h2]
  · intro dest h0 h1
    have h : clampDest dest rightBound = dest := by
      unfold clampDest; simp only [if_neg (show ¬ dest < 0 by omega)]; rw [if_neg (by omega)]
    rw [ValidatePath_eq_clamp, h]


/-! ## Boundary encoding -/

theorem setBytes_lt (bs : List Byte) : setBytes bs < 256 ^ bs.length := by
  induction bs using List.reverseRecOn with
  | nil => simp [setBytes]
  | append_singleton l b ih =>
    rw [setBytes_append_singleton, List.length_append, List.length_singleton, Nat.pow_succ]
    have := b.isLt
    omega

/-- The byte at position `i` of a big-endian string is the digit of weight
`256 ^ (length - 1 - i)` of the number the string decodes to. -/
theorem getElem_val_eq_digit (bs : List Byte) :
    ∀ (i : Nat) (h : i < bs.length),
      (bs[i]).val = setBytes bs / 256 ^ (bs.length - 1 - i) % 256 := by
  induction bs using List.reverseRecOn with
  | nil => intro i h; simp at h
  | append_singleton l b ih =>
    intro i h
    rw [setBytes_append_singleton]
    simp only [List.length_append, List.length_singleton] at h ⊢
    by_cases hi : i < l.length
    · rw [List.getElem_append_left hi, ih i hi]
      have hk : l.length + 1 - 1 - i = (l.length - 1 - i) + 1 := by omega
      rw [hk, Nat.pow_succ, Nat.mul_comm (256 ^ (l.length - 1 - i)) 256,
        ← Nat.div_div_eq_div_mul]
      have : (setBytes l * 256 + b.val) / 256 = setBytes l := by
        have := b.isLt
        omega
      rw [this]
    · have hi2 : i = l.length := by omega
      subst hi2
      have hb := b.isLt
      simp only [List.getElem_concat_length, Nat.add_sub_cancel, Nat.sub_self, Nat.pow_zero,
        Nat.div_one]
      omega

theorem map_val_eq_digits (bs : List Byte) :
    bs.map Fin.val
      = (List.range bs.length).map (fun i => setBytes bs / 256 ^ (bs.length - 1 - i) % 256) := by
  apply List.ext_getElem
  · simp
  · intro i h1 h2
    simp only [List.length_map] at h1
    simp [getElem_val_eq_digit bs i h1]

/-- C14. Boundary encoding round trip: for an integer `x` with `0 ≤ x < 2^256`,
`noteToBinary x` has exactly 32 bytes, its byte at position `i` is the base-256 digit of `x`
of weight `256^(31-i)` (big-endian, zero bytes in front), and decoding it as a big-endian
unsigned integer, as `validatePath` does with `SetBytes`, returns `x`. -/
theorem noteToBinary_encoding (x : Int) (h0 : 0 ≤ x) (h1 : x < 2 ^ 256) :
    (noteToBinary x).length = 32 ∧
    (noteToBinary x).map Fin.val
      = (List.range 32).map (fun i => x.toNat / 256 ^ (31 - i) % 256) ∧
    ((setBytes (noteToBinary x) : Nat) : Int) = x := by
  have hlen := length_noteToBinary_of_range x ⟨h0, h1⟩
  have hset := setBytes_noteToBinary x h0
  refine ⟨hlen, ?_, hset⟩
  have hn : setBytes (noteToBinary x) = x.toNat := by omega
  have := map_val_eq_digits (noteToBinary x)
  rw [hlen, hn] at this
  exact this

theorem natBytesAux_eq_natBytes (n : Nat) : natBytesAux n n = natBytes n := rfl

/-- The claim C18 fails at `x = 2^256`: `noteToBinary` returns 33 bytes, not 32. -/
theorem noteToBinary_truncates_counterexample :
    ¬ ∀ x : Int, 2 ^ 256 ≤ x →
      (noteToBinary x).length = 32 ∧ noteToBinary x = noteToBinary (x % 2 ^ 256) := by
  intro h
  have h1 := (h (2 ^ 256) (Int.le_refl _)).1
  have h2 : (noteToBinary (2 ^ 256)).length = 33 := by decide
  omega

/-- C18, amended. Out-of-range boundary encoding: for a boundary `x ≥ 2^256`,
`noteToBinary x` is the big-endian representation of `x` without padding and without
truncation: it has more than 32 bytes and decoding it returns `x`, not `x mod 2^256`. -/
theorem noteToBinary_out_of_range (x : Int) (hx : 2 ^ 256 ≤ x) :
    32 < (noteToBinary x).length ∧
    noteToBinary x = natBytes x.toNat ∧
    ((setBytes (noteToBinary x) : Nat) : Int) = x ∧
    ((setBytes (noteToBinary x) : Nat) : Int) ≠ x % 2 ^ 256 := by
  have h0 : 0 ≤ x := Int.le_trans (by positivity) hx
  have hset := setBytes_noteToBinary x h0
  have habs : x.natAbs = x.toNat := by omega
  have hlt := setBytes_lt (natBytes x.natAbs)
  rw [setBytes_natBytes] at hlt
  have hbig : 256 ^ 32 ≤ x.natAbs := by
    have h2 : ((2 ^ 256 : Nat) : Int) = 2 ^ 256 := by norm_cast
    have h3 : (256 : Nat) ^ 32 = 2 ^ 256 := by norm_num
    omega
  have hlen : 32 < (natBytes x.natAbs).length := by
    by_contra hc
    have : 256 ^ (natBytes x.natAbs).length ≤ 256 ^ 32 :=
      Nat.pow_le_pow_right (by decide) (by omega)
    omega
  have heq : noteToBinary x = natBytes x.natAbs := by
    unfold noteToBinary LeftPadBytes
    rw [if_pos (by omega)]
  refine ⟨by rw [heq]; exact hlen, by rw [heq, habs], hset, ?_⟩
  rw [hset]
  have hmod : x % 2 ^ 256 < 2 ^ 256 := Int.emod_lt_of_pos x (by positivity)
  omega

/-- The out-of-range encoding at `x = 2^256`. -/
theorem noteToBinary_out_of_range_witness :
    (2 : Int) ^ 256 ≤ 2 ^ 256 ∧ 32 < (noteToBinary (2 ^ 256)).length :=
  ⟨Int.le_refl _, (noteToBinary_out_of_range (2 ^ 256) (Int.le_refl _)).1⟩

/-- The encoding round trip at `x = 1000`. -/
theorem noteToBinary_encoding_witness :
    (0 : Int) ≤ 1000 ∧ (1000 : Int) < 2 ^ 256 ∧ (noteToBinary 1000).length = 32 ∧
    ((setBytes (noteToBinary 1000) : Nat) : Int) = 1000 :=
  ⟨by decide, by decide, (noteToBinary_encoding 1000 (by decide) (by decide)).1,
    (noteToBinary_encoding 1000 (by decide) (by decide)).2.2⟩


/-! ## Hash-chain check -/

theorem bytes32_val_eq_iff (a b : Bytes32) : a.val = b.val ↔ a = b :=
  ⟨Subtype.ext, fun h => by rw [h]⟩

/-- On segments of 32 bytes whose number is `3*d+2`, the loop of `validatePath` returns a
leaf exactly when the hash chain of the specification holds, and the hash-mismatch error
otherwise. -/
theorem validateParts_hash_chain (H : List Byte → Bytes32) (dest : Int) :
    ∀ (parts : List (List Byte)) (id : Bytes32) (lb rb : Int),
      (∀ p ∈ parts, p.length = 32) → parts.length % 3 = 2 →
      (hashChainHolds H dest id.val parts →
        ∃ c L R, validateParts H id dest lb rb parts = Validation.leaf c L R) ∧
      (¬ hashChainHolds H dest id.val parts →
        validateParts H id dest lb rb parts = Validation.failed PathError.hashMismatch) := by
  intro parts
  induction parts using parts_induction with
  | h0 => intro id lb rb _ h; simp at h
  | h1 p => intro id lb rb _ h; simp at h
  | h2 p0 p1 =>
    intro id lb rb _ _
    simp only [hashChainHolds, validateParts, bytes32_val_eq_iff]
    constructor
    · intro h
      rw [if_neg (by simpa using h)]
      exact ⟨_, _, _, rfl⟩
    · intro h
      rw [if_pos h]
  | h3 a b c rest ih =>
    intro id lb rb h32 hlen
    have hrest32 : ∀ p ∈ rest, p.length = 32 := fun p hp => h32 p (by simp [hp])
    have hrestlen : rest.length % 3 = 2 := by
      simp only [List.length_cons] at hlen
      omega
    have ha : a.length = 32 := h32 a (by simp)
    have hb : b.length = 32 := h32 b (by simp)
    rw [validateParts]
    simp only [hashChainHolds, bytes32_val_eq_iff]
    constructor
    · rintro ⟨h1, h2⟩
      rw [if_neg (by simpa using h1)]
      by_cases hlt : dest < ((setBytes c : Nat) : Int)
      · rw [if_pos hlt] at h2 ⊢
        rw [copy32_of_length id a ha]
        exact (ih ⟨a, ha⟩ lb _ hrest32 hrestlen).1 h2
      · rw [if_neg hlt] at h2 ⊢
        rw [copy32_of_length id b hb]
        exact (ih ⟨b, hb⟩ _ rb hrest32 hrestlen).1 h2
    · intro h
      by_cases h1 : H ((H a).val ++ (H b).val ++ (H c).val) = id
      · rw [if_neg (by simpa using h1)]
        have h2 := fun hc => h ⟨h1, hc⟩
        by_cases hlt : dest < ((setBytes c : Nat) : Int)
        · rw [if_pos hlt] at h2 ⊢
          rw [copy32_of_length id a ha]
          exact (ih ⟨a, ha⟩ lb _ hrest32 hrestlen).2 h2
        · rw [if_neg hlt] at h2 ⊢
          rw [copy32_of_length id b hb]
          exact (ih ⟨b, hb⟩ _ rb hrest32 hrestlen).2 h2
      · rw [if_pos h1]

/-- C15. Hash-chain check: for a proof of exactly `3*d+2` segments of 32 bytes, `ValidatePath`
returns a leaf disclosure if and only if every group's recomputed hash equals the expected
identifier (the root for the first group, then the left child identifier of the previous
branch group when the clamped destination is below its decoded note and the right child
identifier otherwise); in every other case it returns the hash-mismatch error. -/
theorem ValidatePath_hash_chain (H : List Byte → Bytes32) (root : Bytes32) (dest rightBound : Int)
    (proof : List Byte) (d : Nat) (hlen : proof.length = 96 * d + 64) :
    ((∃ c L R, ValidatePath H root dest rightBound proof = Validation.leaf c L R) ↔
      hashChainHolds H (clampDest dest rightBound) root.val (partsFrom (3 * d + 2) proof)) ∧
    (¬ hashChainHolds H (clampDest dest rightBound) root.val (partsFrom (3 * d + 2) proof) →
      ValidatePath H root dest rightBound proof = Validation.failed PathError.hashMismatch) := by
  have hl : proof.length = 32 * (3 * d + 2) := by omega
  have hparts : pathToParts proof = some (partsFrom (3 * d + 2) proof) := by
    unfold pathToParts
    rw [if_neg (by simp [hl]), hl, Nat.mul_div_cancel_left _ (by decide : 0 < 32)]
  have h32 := partsFrom_length_eq (3 * d + 2) proof hl
  have hcount : (partsFrom (3 * d + 2) proof).length % 3 = 2 := by
    rw [length_partsFrom]; omega
  have hv : ValidatePath H root dest rightBound proof
      = validateParts H root (clampDest dest rightBound) 0 rightBound
          (partsFrom (3 * d + 2) proof) := by
    rw [ValidatePath_eq_clamp]; unfold validatePath; rw [hparts]
  have key := validateParts_hash_chain H (clampDest dest rightBound)
    (partsFrom (3 * d + 2) proof) root 0 rightBound h32 hcount
  rw [hv]
  refine ⟨⟨?_, key.1⟩, key.2⟩
  rintro ⟨c, L, R, hleaf⟩
  by_contra hno
  rw [key.2 hno] at hleaf
  simp at hleaf

/-- The hash-chain check at the proof generated for destination 1001 in the tree over `es3`. -/
theorem ValidatePath_hash_chain_witness :
    proof3.length = 96 * 1 + 64 ∧
    ((∃ c L R, ValidatePath toyHash root3 1001 1003 proof3 = Validation.leaf c L R) ↔
      hashChainHolds toyHash (clampDest 1001 1003) root3.val (partsFrom (3 * 1 + 2) proof3)) :=
  ⟨by decide, (ValidatePath_hash_chain toyHash root3 1001 1003 proof3 1 (by decide)).1⟩

/-! ## The generator never fails on a built tree -/

/-- On a list without identifier clashes that holds every node of a shape, the generator
started at the shape's identifier either returns the groups of its descent or runs out of
its recursion bound; it never panics. -/
theorem generatePathParts_shape_or (H : List Byte → Bytes32) (dest : Int) (tree : List node)
    (hd : DistinctIds tree) :
    ∀ (t : Shape) (fuel : Nat), (∀ n ∈ t.nodes H, n ∈ tree) →
      generatePathParts fuel (t.toNode H).id dest tree
          = Run.done (proofParts (t.branches H dest) (t.target H dest)) ∨
        generatePathParts fuel (t.toNode H).id dest tree = Run.outOfFuel := by
  intro t
  induction t with
  | leaf e =>
    intro fuel hmem
    cases fuel with
    | zero => right; rfl
    | succ f => left; exact generatePathParts_shape H dest tree hd _ _ hmem (by simp [Shape.height])
  | branch l r ihl ihr =>
    intro fuel hmem
    cases fuel with
    | zero => right; rfl
    | succ f =>
      have hn : (Shape.branch l r).toNode H ∈ tree := hmem _ (Shape.toNode_mem_nodes H _)
      have hl : ∀ n ∈ l.nodes H, n ∈ tree := fun n h => hmem n (by simp [Shape.nodes, h])
      have hr : ∀ n ∈ r.nodes H, n ∈ tree := fun n h => hmem n (by simp [Shape.nodes, h])
      rw [generatePathParts]
      simp only [getNode_of_mem tree hd _ hn]
      have h1 : ((Shape.branch l r).toNode H).nodeType ≠ NODE_TYPE_LEAF := by
        rw [Shape.toNode_branch_type]; decide
      rw [if_neg h1, if_pos (Shape.toNode_branch_type H l r)]
      have hnote : ((Shape.branch l r).toNode H).note = (l.toNode H).max := rfl
      have hleft : ((Shape.branch l r).toNode H).left = (l.toNode H).id := rfl
      have hright : ((Shape.branch l r).toNode H).right = (r.toNode H).id := rfl
      simp only [hnote, hleft, hright]
      by_cases hlt : dest < (l.toNode H).max
      · simp only [if_pos hlt, Shape.branches, Shape.target]
        rcases ihl f hl with h | h
        · left; rw [h]; simp [proofParts, branchGroup, hnote, hleft, hright]
        · right; rw [h]
      · simp only [if_neg hlt, Shape.branches, Shape.target]
        rcases ihr f hr with h | h
        · left; rw [h]; simp [proofParts, branchGroup, hnote, hleft, hright]
        · right; rw [h]

/-- C16. The generator never hits an internal-consistency failure on builder output: for a
non-empty element list whose built tree has no two different nodes with the same identifier
and every destination, `GeneratePath` returns a proof for every recursion bound of at least
the number of elements (the recursion terminates), it panics for no recursion bound, and the
nodes it visits, from the root down, are all found by `getNode` and are branch nodes
followed by one leaf node. -/
theorem GeneratePath_no_failure (H : List Byte → Bytes32) (es : List element) (dest : Int)
    (hne : es ≠ []) (hids : DistinctIds (GenerateTree H es).2) :
    (∀ fuel, es.length ≤ fuel →
      ∃ path, GeneratePath fuel (GenerateTree H es).1 dest (GenerateTree H es).2
        = Run.done path) ∧
    (∀ fuel p, GeneratePath fuel (GenerateTree H es).1 dest (GenerateTree H es).2
        ≠ Run.panicked p) ∧
    ∃ (branches : List node) (e : element), e ∈ es ∧
      IsDescent dest (GenerateTree H es).1 branches (leafNode H e) ∧
      (∀ b ∈ branches, getNode b.id (GenerateTree H es).2 = some b ∧
        b.nodeType = NODE_TYPE_BRANCH) ∧
      getNode (leafNode H e).id (GenerateTree H es).2 = some (leafNode H e) ∧
      (leafNode H e).nodeType = NODE_TYPE_LEAF := by
  obtain ⟨t, ht, hroot, _, hmem⟩ := GenerateTree_shape H es hne
  subst ht
  refine ⟨?_, ?_, t.branches H dest, t.target H dest, Shape.target_mem_leaves H dest t, ?_, ?_,
    ?_, rfl⟩
  · intro fuel hfuel
    refine ⟨(proofParts (t.branches H dest) (t.target H dest)).flatten, ?_⟩
    unfold GeneratePath
    rw [hroot, generatePathParts_shape H dest _ hids t fuel hmem
      (Nat.lt_of_lt_of_le t.height_lt_length_leaves hfuel)]
  · intro fuel p
    unfold GeneratePath
    rw [hroot]
    rcases generatePathParts_shape_or H dest _ hids t fuel hmem with h | h <;> rw [h] <;> simp
  · rw [hroot]; exact Shape.isDescent H dest t
  · intro b hb
    have := Shape.branches_mem H dest t b hb
    exact ⟨getNode_of_mem _ hids b (hmem b this.1), this.2⟩
  · apply getNode_of_mem _ hids
    apply hmem
    have : ∀ s : Shape, leafNode H (s.target H dest) ∈ s.nodes H := by
      intro s
      induction s with
      | leaf e => simp [Shape.target, Shape.nodes]
      | branch l r ihl ihr =>
        simp only [Shape.target, Shape.nodes, List.mem_cons, List.mem_append]
        split
        · exact Or.inr (Or.inl ihl)
        · exact Or.inr (Or.inr ihr)
    exact this t

/-- The generator on the tree over `es3` for destination 1001. -/
theorem GeneratePath_no_failure_witness :
    es3 ≠ [] ∧ DistinctIds (GenerateTree toyHash es3).2 ∧
    (∀ fuel, es3.length ≤ fuel →
      ∃ path, GeneratePath fuel (GenerateTree toyHash es3).1 1001 (GenerateTree toyHash es3).2
        = Run.done path) :=
  ⟨by decide, by decide, (GeneratePath_no_failure toyHash es3 1001 (by decide) (by decide)).1⟩


/-! ## Branch invariant -/

theorem Contiguous.increasing {run es : List element} (h : Contiguous run es)
    (hinc : Increasing es) : Increasing run := by
  obtain ⟨pre, post, rfl⟩ := h
  unfold Increasing at hinc ⊢
  rw [List.pairwise_append, List.pairwise_append] at hinc
  exact hinc.1.2.1

theorem Contiguous.append_left {run es : List element} (h : Contiguous run es)
    (front : List element) : Contiguous run (front ++ es) := by
  obtain ⟨pre, post, rfl⟩ := h
  exact ⟨front ++ pre, post, by simp⟩

theorem pairUp_contiguous : ∀ ts : List Shape, ∀ t ∈ pairUp ts,
    Contiguous t.leaves (ts.map Shape.leaves).flatten
  | [], t, h => by simp [pairUp] at h
  | [a], t, h => by
    simp only [pairUp, List.mem_singleton] at h
    subst h
    exact ⟨[], [], by simp⟩
  | l :: r :: rest, t, h => by
    simp only [pairUp, List.mem_cons] at h
    rcases h with rfl | h
    · exact ⟨[], (rest.map Shape.leaves).flatten, by simp [Shape.leaves]⟩
    · have := (pairUp_contiguous rest t h).append_left (l.leaves ++ r.leaves)
      simpa using this

/-- Every node of the list that the loop of `generateAllRows` returns is the node of a
shape whose nodes are all in the list and whose leaves are a contiguous run of the leaves
of the row the loop started from. -/
theorem generateAllRowsLoop_all_shaped (H : List Byte → Bytes32) :
    ∀ (fuel : Nat) (ts : List Shape) (tree : List node),
      (∀ t ∈ ts, ∀ n ∈ t.nodes H, n ∈ tree) →
      (∀ n ∈ tree, ∃ s : Shape, s.toNode H = n ∧ (∀ m ∈ s.nodes H, m ∈ tree) ∧
        Contiguous s.leaves (ts.map Shape.leaves).flatten) →
      ∀ n ∈ generateAllRowsLoop H fuel tree (ts.map (Shape.toNode H)),
        ∃ s : Shape, s.toNode H = n ∧
          (∀ m ∈ s.nodes H, m ∈ generateAllRowsLoop H fuel tree (ts.map (Shape.toNode H))) ∧
          Contiguous s.leaves (ts.map Shape.leaves).flatten := by
  intro fuel
  induction fuel with
  | zero => intro ts tree _ h; simpa [generateAllRowsLoop] using h
  | succ fuel ih =>
    intro ts tree hrow htree
    simp only [generateAllRowsLoop, List.length_map]
    split
    · exact htree
    · rw [generateRow_map_toNode]
      have hnodes := pairUp_nodes H tree ts hrow
      have key := ih (pairUp ts) ((pairUp ts).map (Shape.toNode H) ++ tree) hnodes (by
        intro n hn
        rw [pairUp_leaves]
        rcases List.mem_append.mp hn with hn | hn
        · obtain ⟨t, ht, rfl⟩ := List.mem_map.mp hn
          exact ⟨t, rfl, hnodes t ht, pairUp_contiguous ts t ht⟩
        · obtain ⟨s, hs1, hs2, hs3⟩ := htree n hn
          exact ⟨s, hs1, fun m hm => List.mem_append_right _ (hs2 m hm), hs3⟩)
      rw [pairUp_leaves] at key
      exact key

/-- Every node of the list that `GenerateTree` returns is the node of a shape whose nodes
are all in the list and whose leaves are a contiguous run of the input. -/
theorem GenerateTree_all_shaped (H : List Byte → Bytes32) (es : List element) :
    ∀ n ∈ (GenerateTree H es).2, ∃ s : Shape, s.toNode H = n ∧
      (∀ m ∈ s.nodes H, m ∈ (GenerateTree H es).2) ∧ Contiguous s.leaves es := by
  have hrow : generateLeaves H es = (es.map Shape.leaf).map (Shape.toNode H) := by
    simp [generateLeaves, Shape.toNode, List.map_map, Function.comp_def]
  have hmemrow : ∀ t ∈ es.map Shape.leaf, ∀ n ∈ t.nodes H, n ∈ generateLeaves H es := by
    intro t ht n hn
    simp only [List.mem_map] at ht
    obtain ⟨e, he, rfl⟩ := ht
    simp only [Shape.nodes, List.mem_singleton] at hn
    subst hn
    exact List.mem_map_of_mem _ he
  have key := generateAllRowsLoop_all_shaped H (generateLeaves H es).length (es.map Shape.leaf)
    (generateLeaves H es) hmemrow (by
      intro n hn
      simp only [generateLeaves, List.mem_map] at hn
      obtain ⟨e, he, rfl⟩ := hn
      refine ⟨Shape.leaf e, rfl, hmemrow _ (List.mem_map_of_mem _ he), ?_⟩
      rw [flatten_leaves_leaf]
      obtain ⟨pre, post, hsplit⟩ := List.append_of_mem he
      exact ⟨pre, post, by simp [Shape.leaves, hsplit]⟩)
  rw [flatten_leaves_leaf, ← hrow] at key
  unfold GenerateTree generateAllRows
  cases hg : generateLeaves H es with
  | nil => intro n hn; simp at hn
  | cons a b =>
    rw [hg] at key
    simp only
    cases hres : generateAllRowsLoop H (a :: b).length (a :: b) (a :: b) with
    | nil => intro n hn; simp at hn
    | cons r rs =>
      rw [hres] at key
      exact key

/-- C17. Branch invariant: for an element list with strictly increasing boundaries, every
Branch node of the node list returned by `GenerateTree` is the node of two subtrees whose
nodes are all in the list, with `note ≤ max`; its note is the largest boundary among the
leaves of its left subtree, its max is the largest boundary among all its descendant leaves,
and its descendant leaves are a contiguous run of the input with increasing boundaries.
The first node of the list carries the root identifier and its max is the boundary of the
last element. -/
theorem branch_invariant (H : List Byte → Bytes32) (es : List element) (hinc : Increasing es) :
    (∀ n ∈ (GenerateTree H es).2, n.nodeType = NODE_TYPE_BRANCH →
      ∃ l r : Shape, n = (Shape.branch l r).toNode H ∧
        (∀ m ∈ (Shape.branch l r).nodes H, m ∈ (GenerateTree H es).2) ∧
        n.note ≤ n.max ∧
        (∃ x ∈ l.leaves, x.note = n.note) ∧ (∀ x ∈ l.leaves, x.note ≤ n.note) ∧
        (∃ x ∈ l.leaves ++ r.leaves, x.note = n.max) ∧
        (∀ x ∈ l.leaves ++ r.leaves, x.note ≤ n.max) ∧
        Contiguous (l.leaves ++ r.leaves) es ∧ Increasing (l.leaves ++ r.leaves)) ∧
    (∀ e, es.getLast? = some e →
      ∃ rootNode, (GenerateTree H es).2.head? = some rootNode ∧
        rootNode.id = (GenerateTree H es).1 ∧ rootNode.max = e.note) := by
  constructor
  · intro n hn htype
    obtain ⟨s, hs1, hs2, hs3⟩ := GenerateTree_all_shaped H es n hn
    cases s with
    | leaf e =>
      rw [← hs1] at htype
      simp [Shape.toNode, leafNode, NODE_TYPE_LEAF, NODE_TYPE_BRANCH] at htype
    | branch l r =>
      have hincs : Increasing (Shape.branch l r).leaves := hs3.increasing hinc
      have hnote : n.note = l.last.note := by rw [← hs1]; exact Shape.toNode_max H l
      have hmax : n.max = (Shape.branch l r).last.note := by
        rw [← hs1]; exact Shape.toNode_max H (Shape.branch l r)
      have hincl : Increasing l.leaves := by
        have := hincs
        unfold Increasing at this ⊢
        simp only [Shape.leaves] at this
        rw [List.pairwise_append] at this
        exact this.1
      have hle := (Shape.branch l r).note_le_last hincs
      refine ⟨l, r, hs1.symm, hs2, ?_, ⟨l.last, l.last_mem_leaves, hnote.symm⟩, ?_,
        ⟨(Shape.branch l r).last, (Shape.branch l r).last_mem_leaves, hmax.symm⟩, ?_, hs3, hincs⟩
      · rw [hnote, hmax]
        exact hle _ (Shape.leaves_branch_left l r _ l.last_mem_leaves)
      · intro x hx
        rw [hnote]
        exact l.note_le_last hincl x hx
      · intro x hx
        rw [hmax]
        exact hle x hx
  · intro e he
    have hne : es ≠ [] := by intro h; rw [h] at he; simp at he
    obtain ⟨t, ht, hroot, hhead, _⟩ := GenerateTree_shape H es hne
    refine ⟨t.toNode H, hhead, hroot.symm, ?_⟩
    rw [Shape.toNode_max]
    rw [← ht, Shape.getLast?_leaves] at he
    rw [Option.some.inj he]

/-- The branch invariant on the tree over `es3`. -/
theorem branch_invariant_witness :
    Increasing es3 ∧
    ∀ e, es3.getLast? = some e →
      ∃ rootNode, (GenerateTree toyHash es3).2.head? = some rootNode ∧
        rootNode.id = (GenerateTree toyHash es3).1 ∧ rootNode.max = e.note :=
  ⟨by decide, (branch_invariant toyHash es3 (by decide)).2⟩


/-! ## Target leaf of the generator -/

/-- The claim C19 fails on the tree over `es3` at destination 1001: the generated proof ends
with the group of the third element, whose boundary 1002 is not below 1001. -/
theorem GeneratePath_target_counterexample :
    ¬ ∀ (H : List Byte → Bytes32) (es : List element) (dest : Int), es ≠ [] → Increasing es →
      DistinctIds (GenerateTree H es).2 →
      ∀ (path : List Byte) (e : element),
        GeneratePath es.length (GenerateTree H es).1 dest (GenerateTree H es).2 = Run.done path →
        e ∈ es → path.drop (path.length - 64) = e.data.val ++ noteToBinary e.note →
        e.note < dest := by
  intro h
  have := h toyHash es3 1001 (by decide) (by decide) (by decide) proof3 ⟨chunk 2, 1002⟩
    (by decide) (by decide) (by decide)
  exact absurd this (by decide)

/-- C19, amended. Target leaf of the generator: for a tree built by `GenerateTree` from a
non-empty element list with strictly increasing boundaries, without two different nodes of
the same identifier, and every destination, the proof of `GeneratePath` ends with the group
of the element with the smallest boundary strictly above `dest`, or of the last element
when no boundary is above `dest`. -/
theorem GeneratePath_target (H : List Byte → Bytes32) (es : List element) (dest : Int)
    (hne : es ≠ []) (hinc : Increasing es) (hids : DistinctIds (GenerateTree H es).2) :
    ∃ (branches : List node) (e : element) (path : List Byte),
      (∀ fuel, es.length ≤ fuel →
        GeneratePath fuel (GenerateTree H es).1 dest (GenerateTree H es).2 = Run.done path) ∧
      path = (branches.map (fun b => b.left.val ++ b.right.val ++ noteToBinary b.note)).flatten
          ++ (e.data.val ++ noteToBinary e.note) ∧
      e ∈ es ∧
      ((dest < e.note ∧ ∀ x ∈ es, dest < x.note → e.note ≤ x.note) ∨
        ((∀ x ∈ es, x.note ≤ dest) ∧ es.getLast? = some e)) := by
  obtain ⟨t, ht, hroot, _, hmem⟩ := GenerateTree_shape H es hne
  subst ht
  refine ⟨t.branches H dest, t.target H dest,
    (proofParts (t.branches H dest) (t.target H dest)).flatten, ?_, flatten_proofParts _ _,
    Shape.target_mem_leaves H dest t, Shape.target_char H dest t hinc⟩
  intro fuel hfuel
  unfold GeneratePath
  rw [hroot, generatePathParts_shape H dest _ hids t fuel hmem
    (Nat.lt_of_lt_of_le t.height_lt_length_leaves hfuel)]

/-- The target leaf on the tree over `es3` for destination 1001. -/
theorem GeneratePath_target_witness :
    es3 ≠ [] ∧ Increasing es3 ∧ DistinctIds (GenerateTree toyHash es3).2 ∧
    ∃ (branches : List node) (e : element) (path : List Byte),
      (∀ fuel, es3.length ≤ fuel →
        GeneratePath fuel (GenerateTree toyHash es3).1 1001 (GenerateTree toyHash es3).2
          = Run.done path) ∧
      path = (branches.map (fun b => b.left.val ++ b.right.val ++ noteToBinary b.note)).flatten
          ++ (e.data.val ++ noteToBinary e.note) ∧
      e ∈ es3 ∧
      (((1001 : Int) < e.note ∧ ∀ x ∈ es3, (1001 : Int) < x.note → e.note ≤ x.note) ∨
        ((∀ x ∈ es3, x.note ≤ (1001 : Int)) ∧ es3.getLast? = some e)) :=
  ⟨by decide, by decide, by decide,
    GeneratePath_target toyHash es3 1001 (by decide) (by decide) (by decide)⟩

/-! ## Exact interval of a generated proof -/

/-- The interval of the descent to the leaf `e`: the left end is the boundary of the leaf
before `e` in the shape (or the start value when `e` is the first leaf and the start value
is larger), the right end is the smaller of the start value and the boundary of `e`, and at
least one more than the left end. -/
theorem Shape.bounds_exact (H : List Byte → Bytes32) (dest : Int) :
    ∀ (t : Shape) (pre post : List element) (e : element) (lb rb : Int),
      t.leaves = pre ++ e :: post → Increasing t.leaves →
      (∀ x ∈ pre, x.note ≤ dest) → dest < e.note →
      (t.bounds H dest lb rb).1
          = (match pre.getLast? with
            | some p => max lb p.note
            | none => lb) ∧
        (t.bounds H dest lb rb).2 = max (min rb e.note) ((t.bounds H dest lb rb).1 + 1) := by
  intro t
  induction t with
  | leaf e1 =>
    intro pre post e lb rb h _ _ _
    cases pre with
    | nil =>
      simp only [Shape.leaves, List.nil_append, List.cons.injEq] at h
      obtain ⟨rfl, _⟩ := h
      simp [Shape.bounds, bigMax_eq_max, bigMin_eq_min]
    | cons a pre => simp [Shape.leaves] at h
  | branch l r ihl ihr =>
    intro pre post e lb rb h hinc hpre hhi
    have hinc2 := hinc
    unfold Increasing at hinc2
    simp only [Shape.leaves] at h hinc2
    rw [List.pairwise_append] at hinc2
    obtain ⟨hincl, hincr, hlr⟩ := hinc2
    simp only [Shape.bounds, Shape.toNode_max]
    have right_case : ∀ a1, pre = l.leaves ++ a1 → r.leaves = a1 ++ e :: post →
        ((if dest < l.last.note then l.bounds H dest lb (bigMin l.last.note rb)
            else r.bounds H dest (bigMax l.last.note lb) rb).1
          = (match pre.getLast? with
            | some p => max lb p.note
            | none => lb)) ∧
        (if dest < l.last.note then l.bounds H dest lb (bigMin l.last.note rb)
            else r.bounds H dest (bigMax l.last.note lb) rb).2
          = max (min rb e.note)
              ((if dest < l.last.note then l.bounds H dest lb (bigMin l.last.note rb)
                else r.bounds H dest (bigMax l.last.note lb) rb).1 + 1) := by
      intro a1 h1 h2
      have hlast : l.last.note ≤ dest := hpre _ (by rw [h1]; simp [l.last_mem_leaves])
      rw [if_neg (by omega)]
      obtain ⟨ih1, ih2⟩ := ihr a1 post e (bigMax l.last.note lb) rb h2 hincr
        (fun x hx => hpre x (by rw [h1]; simp [hx])) hhi
      refine ⟨?_, ih2⟩
      rw [ih1, h1]
      rcases List.eq_nil_or_concat a1 with ha | ⟨a2, p, ha⟩
      · subst ha
        simp only [List.getLast?_nil, List.append_nil, l.getLast?_leaves, bigMax_eq_max]
        omega
      · rw [List.concat_eq_append] at ha
        subst ha
        have hp : l.last.note < p.note :=
          hlr _ l.last_mem_leaves p (by rw [h2]; simp)
        rw [← List.append_assoc, List.getLast?_concat, List.getLast?_concat]
        simp only [bigMax_eq_max]
        omega
    rcases List.append_eq_append_iff.mp h with ⟨a1, h1, h2⟩ | ⟨c1, h1, h2⟩
    · exact right_case a1 h1 h2
    · cases c1 with
      | nil =>
        simp only [List.append_nil] at h1
        simp only [List.nil_append] at h2
        exact right_case [] (by simp [h1]) (by simp [h2])
      | cons c c2 =>
        simp only [List.cons_append, List.cons.injEq] at h2
        obtain ⟨rfl, h2⟩ := h2
        have hle : e.note ≤ l.last.note :=
          l.note_le_last hincl e (by rw [h1]; simp)
        rw [if_pos (by omega)]
        obtain ⟨ih1, ih2⟩ := ihl pre c2 e lb (bigMin l.last.note rb) h1 hincl hpre hhi
        refine ⟨ih1, ?_⟩
        rw [ih2, bigMin_eq_min]
        omega

theorem getLast?_take_succ (es : List element) (j : Nat) (hj : j < es.length) :
    (es.take (j + 1)).getLast? = some es[j] := by
  have h : es.take (j + 1) = es.take j ++ [es[j]] := by
    rw [List.take_succ, List.getElem?_eq_getElem hj]; rfl
  rw [h, List.getLast?_concat]

/-- C20, amended. Exact tightened interval of an honest proof: for a non-empty element list with
strictly increasing boundaries that are non-negative and below `2^256`, a leaf index `i`, a
destination with `boundary(i-1) ≤ dest < boundary(i)` (`boundary(-1) = 0`) and a right bound
hint above `dest`, and when no two different nodes of the built tree share an identifier,
validating the generated proof returns the chunk hash of element `i` with
`tightenedLeft = boundary(i-1)` and `tightenedRight = min(rightBoundHint, boundary(i))`. -/
theorem exact_interval (H : List Byte → Bytes32) (es : List element) (i : Nat) (e : element)
    (dest rightBound : Int)
    (hne : es ≠ []) (hinc : Increasing es) (hrange : InRange es)
    (hi : es[i]? = some e)
    (hlo : boundaryBefore es i ≤ dest) (hhi : dest < e.note) (hhint : dest < rightBound)
    (hids : DistinctIds (GenerateTree H es).2) :
    ∃ path : List Byte,
      (∀ fuel, es.length ≤ fuel →
        GeneratePath fuel (GenerateTree H es).1 dest (GenerateTree H es).2 = Run.done path) ∧
      ValidatePath H (GenerateTree H es).1 dest rightBound path
        = Validation.leaf e.data (boundaryBefore es i) (min rightBound e.note) := by
  obtain ⟨t, ht, hroot, _, hmem⟩ := GenerateTree_shape H es hne
  subst ht
  have htarget : t.target H dest = e := Shape.target_of_index H t i e dest hinc hi hlo hhi
  have hnn := boundaryBefore_nonneg _ hrange i
  have h0 : 0 ≤ dest := Int.le_trans hnn hlo
  have hlt : i < t.leaves.length := (List.getElem?_eq_some_iff.mp hi).1
  have hget : t.leaves[i] = e := (List.getElem?_eq_some_iff.mp hi).2
  have hsplit : t.leaves = t.leaves.take i ++ e :: t.leaves.drop (i + 1) := by
    rw [← hget, ← List.drop_eq_getElem_cons hlt, List.take_append_drop]
  obtain ⟨hb1, hb2⟩ := Shape.bounds_exact H dest t (t.leaves.take i) (t.leaves.drop (i + 1)) e
    0 rightBound hsplit hinc
    (fun x hx => Int.le_trans (take_le_boundaryBefore _ hinc i hlt x hx) hlo) hhi
  have hL : (t.bounds H dest 0 rightBound).1 = boundaryBefore t.leaves i := by
    rw [hb1]
    cases i with
    | zero => simp [boundaryBefore]
    | succ j =>
      have hj : j < t.leaves.length := by omega
      rw [getLast?_take_succ _ j hj]
      have hbb : boundaryBefore t.leaves (j + 1) = t.leaves[j].note := by
        simp [boundaryBefore, List.getElem?_eq_getElem hj]
      rw [hbb] at hnn ⊢
      simp only
      omega
  have hR : (t.bounds H dest 0 rightBound).2 = min rightBound e.note := by
    rw [hb2, hL]
    omega
  refine ⟨(proofParts (t.branches H dest) (t.target H dest)).flatten, ?_, ?_⟩
  · intro fuel hfuel
    unfold GeneratePath
    rw [hroot, generatePathParts_shape H dest _ hids t fuel hmem
      (Nat.lt_of_lt_of_le t.height_lt_length_leaves hfuel)]
  · unfold ValidatePath
    simp only [if_neg (Int.not_lt.mpr h0), ge_iff_le, if_neg (Int.not_le.mpr hhint)]
    rw [hroot, validatePath_proofParts H dest 0 rightBound t hrange, htarget, hL, hR]

/-- The exact interval at the third element of `es3` with destination 1001 and hint 1003. -/
theorem exact_interval_witness :
    es3 ≠ [] ∧ Increasing es3 ∧ InRange es3 ∧ es3[2]? = some ⟨chunk 2, 1002⟩ ∧
    boundaryBefore es3 2 ≤ 1001 ∧ DistinctIds (GenerateTree toyHash es3).2 ∧
    ∃ path : List Byte,
      (∀ fuel, es3.length ≤ fuel →
        GeneratePath fuel (GenerateTree toyHash es3).1 1001 (GenerateTree toyHash es3).2
          = Run.done path) ∧
      ValidatePath toyHash (GenerateTree toyHash es3).1 1001 1003 path
        = Validation.leaf (chunk 2) (boundaryBefore es3 2) (min 1003 1002) :=
  ⟨by decide, by decide, by decide, by decide, by decide, by decide,
    exact_interval toyHash es3 2 ⟨chunk 2, 1002⟩ 1001 1003 (by decide) (by decide) (by decide)
      (by decide) (by decide) (by decide) (by decide) (by decide)⟩


/-! ## The later theorems at the elements of `TestSimple3Item` -/

/-- The leaf derived from the first element of `es3`. -/
theorem generateLeaves_spec_witness :
    es3[0]? = some ⟨chunk 0, 1000⟩ ∧
    (generateLeaves toyHash es3).length = es3.length ∧
    ∃ n : node, (generateLeaves toyHash es3)[0]? = some n ∧
      n.nodeType = NODE_TYPE_LEAF ∧ n.data = chunk 0 ∧ n.note = 1000 ∧ n.max = 1000 ∧
      n.id = toyHash ((toyHash (chunk 0).val).val ++ (toyHash (noteToBinary 1000)).val) ∧
      ((0 : Int) ≤ 1000 → (1000 : Int) < 2 ^ 256 →
        (noteToBinary 1000).length = 32 ∧ ((setBytes (noteToBinary 1000) : Nat) : Int) = 1000) :=
  ⟨by decide, generateLeaves_spec toyHash es3 0 ⟨chunk 0, 1000⟩ (by decide)⟩

/-- Clamping of a negative destination with the hint 1003. -/
theorem ValidatePath_clamp_witness :
    (1 : Int) ≤ 1003 ∧
    ValidatePath toyHash root3 (-5) 1003 proof3 = ValidatePath toyHash root3 0 1003 proof3 :=
  ⟨by decide, (ValidatePath_clamp toyHash root3 1003 proof3 (by decide)).1 (-5) (by decide)⟩


/-! ## Negative boundaries -/

/-- The claim C1 without the requirement that boundaries are non-negative fails on `esNeg`
(boundaries -5 and 3) at leaf 1, destination 1 and hint 10: the encoding drops the sign, the
generator goes right at the root and the validator, which decodes 5, goes left and rejects
the generated proof with a hash mismatch. -/
theorem roundtrip_counterexample :
    ¬ ∀ (H : List Byte → Bytes32) (es : List element) (i : Nat) (e : element)
        (dest rightBound : Int),
      es ≠ [] → Increasing es → (∀ x ∈ es, x.note < 2 ^ 256) → es[i]? = some e →
      boundaryBefore es i ≤ dest → dest < e.note → dest < rightBound →
      DistinctIds (GenerateTree H es).2 →
      ∃ (path : List Byte) (tightenedLeft tightenedRight : Int),
        (∀ fuel, es.length ≤ fuel →
          GeneratePath fuel (GenerateTree H es).1 dest (GenerateTree H es).2 = Run.done path) ∧
        ValidatePath H (GenerateTree H es).1 dest rightBound path
          = Validation.leaf e.data tightenedLeft tightenedRight ∧
        tightenedLeft ≤ dest ∧ dest < tightenedRight := by
  intro h
  obtain ⟨path, L, R, hgen, hval, _, _⟩ := h toyHash esNeg 1 ⟨chunk 4, 3⟩ 1 10
    (by decide) (by decide) (by decide) (by decide) (by decide) (by decide) (by decide)
    (by decide)
  have hg : GeneratePath 2 (GenerateTree toyHash esNeg).1 1 (GenerateTree toyHash esNeg).2
      = Run.done proofNeg := by decide
  have hpath : path = proofNeg := by
    have := hgen 2 (by decide)
    rw [hg] at this
    exact (Run.done.inj this).symm
  have hv : ValidatePath toyHash (GenerateTree toyHash esNeg).1 1 10 proofNeg
      = Validation.failed PathError.hashMismatch := by decide
  rw [hpath, hv] at hval
  exact Validation.noConfusion hval

/-- The claim C2 without the requirement that boundaries are non-negative fails on `esNeg`
at destination 1 and hint 10: the proof of the first leaf (boundary -5, encoded as 5) is
accepted and returns chunk 3, although the smallest boundary above 1 is that of the second
leaf. -/
theorem ValidatePath_sound_counterexample :
    ¬ ∀ (H : List Byte → Bytes32) (es : List element) (dest rightBound : Int)
        (proof : List Byte) (d : Nat),
      es ≠ [] → Increasing es → (∀ x ∈ es, x.note < 2 ^ 256) → 1 ≤ rightBound →
      proof.length = 96 * d + 64 →
      NoCollision H (treeHashInputs H (GenerateTree H es).2 ++ proofHashInputs H proof) →
      (ValidatePath H (GenerateTree H es).1 dest rightBound proof).errIsNil = true →
      ∃ (e : element) (tightenedLeft tightenedRight : Int), e ∈ es ∧
        ValidatePath H (GenerateTree H es).1 dest rightBound proof
          = Validation.leaf e.data tightenedLeft tightenedRight ∧
        ((clampDest dest rightBound < e.note ∧
            ∀ x ∈ es, clampDest dest rightBound < x.note → e.note ≤ x.note) ∨
          ((∀ x ∈ es, x.note ≤ clampDest dest rightBound) ∧ es.getLast? = some e)) := by
  intro h
  obtain ⟨e, L, R, hmem, hval, hchar⟩ := h toyHash esNeg 1 10 proofNegFirst 1
    (by decide) (by decide) (by decide) (by decide) (by decide) (by decide) (by decide)
  have hv : ValidatePath toyHash (GenerateTree toyHash esNeg).1 1 10 proofNegFirst
      = Validation.leaf (chunk 3) 0 5 := by decide
  rw [hv] at hval
  have hdata : chunk 3 = e.data := (Validation.leaf.inj hval).1
  have hclamp : clampDest 1 10 = 1 := by decide
  rw [hclamp] at hchar
  simp only [esNeg, List.mem_cons, List.mem_singleton, List.not_mem_nil, or_false] at hmem
  rcases hmem with rfl | rfl
  · rcases hchar with ⟨h1, _⟩ | ⟨h1, _⟩
    · exact absurd h1 (by decide)
    · exact absurd (h1 ⟨chunk 4, 3⟩ (by decide)) (by decide)
  · exact absurd hdata (by decide)

/-- The claim C20 without the requirement that boundaries are non-negative fails on `esNeg`
at leaf 1, destination 1 and hint 10: validating the generated proof returns a hash
mismatch, so no interval is returned. -/
theorem exact_interval_counterexample :
    ¬ ∀ (H : List Byte → Bytes32) (es : List element) (i : Nat) (e : element)
        (dest rightBound : Int),
      es ≠ [] → Increasing es → (∀ x ∈ es, x.note < 2 ^ 256) → es[i]? = some e →
      boundaryBefore es i ≤ dest → dest < e.note → dest < rightBound →
      DistinctIds (GenerateTree H es).2 →
      ∃ path : List Byte,
        (∀ fuel, es.length ≤ fuel →
          GeneratePath fuel (GenerateTree H es).1 dest (GenerateTree H es).2 = Run.done path) ∧
        ValidatePath H (GenerateTree H es).1 dest rightBound path
          = Validation.leaf e.data (boundaryBefore es i) (min rightBound e.note) := by
  intro h
  obtain ⟨path, hgen, hval⟩ := h toyHash esNeg 1 ⟨chunk 4, 3⟩ 1 10
    (by decide) (by decide) (by decide) (by decide) (by decide) (by decide) (by decide)
    (by decide)
  have hg : GeneratePath 2 (GenerateTree toyHash esNeg).1 1 (GenerateTree toyHash esNeg).2
      = Run.done proofNeg := by decide
  have hpath : path = proofNeg := by
    have := hgen 2 (by decide)
    rw [hg] at this
    exact (Run.done.inj this).symm
  have hv : ValidatePath toyHash (GenerateTree toyHash esNeg).1 1 10 proofNeg
      = Validation.failed PathError.hashMismatch := by decide
  rw [hpath, hv] at hval
  exact Validation.noConfusion hval


end Arweave
